import Mathlib

/-!
Verification of the BKT adaptive-practice engine (`bkt_core.py`).

The development shallowly embeds the core of the repository:
* `SimpleBKTEngine.update_mastery` (Bayesian Knowledge Tracing update),
* `recommend_question` (candidate filtering, lazy KC materialization,
  near-bottom-band selection),
* `check_answer` (numeric / formula / string answer judging), and
* `latex_to_sympy` (the heuristic LaTeX-to-SymPy text normalizer).

Python floats are modelled as exact rationals (`ℚ`); strings handled by the
normalizer are modelled as `List Char` (ASCII semantics for the regex
character classes); the `random.choice` call is modelled by an arbitrary
index `pick : Nat` reduced modulo the band size, so theorems quantifying
over `pick` cover every possible random choice.  External dependencies (the
SymPy oracle functions `sympify`, `.equals`, `simplify`, and Python's
`float` parser) are parameters of the embedding: a raised exception is
modelled as `none`.
-/

/-! ### Definitions: BKT mastery update (bkt_core.py lines 97-127) -/

/-- BKT mastery update with explicit parameters, from
`SimpleBKTEngine.update_mastery` (bkt_core.py lines 107-127).
`learn`, `slip`, `guess` are the engine's `learn_rate`, `slip_rate`,
`guess_rate`. -/
def updateMasteryP (learn slip guess p : ℚ) (is_correct : Bool) : ℚ :=
  let numerator := if is_correct then p * (1 - slip) else p * slip
  let denominator :=
    if is_correct then numerator + (1 - p) * guess
    else numerator + (1 - p) * (1 - guess)
  let new_p := if denominator > 0 then numerator / denominator else p
  let new_p := new_p + (1 - new_p) * learn
  min new_p (99/100)

/-- `update_mastery` with the engine's default parameters
(learn 0.3, slip 0.1, guess 0.2). -/
def update_mastery (p : ℚ) (is_correct : Bool) : ℚ :=
  updateMasteryP (3/10) (1/10) (2/10) p is_correct

/-- The Bayes-update denominator of `update_mastery` (the quantity the code
compares against zero), with explicit parameters. -/
def bktDenominator (slip guess p : ℚ) (is_correct : Bool) : ℚ :=
  if is_correct then p * (1 - slip) + (1 - p) * guess
  else p * slip + (1 - p) * (1 - guess)

/-- The value `update_mastery` computes before the learning increment is
applied: the raw Bayes posterior (lines 118-125 of bkt_core.py), with the
default parameters. -/
def posteriorOnly (p : ℚ) (is_correct : Bool) : ℚ :=
  let numerator := if is_correct then p * (1 - 1/10) else p * (1/10)
  let denominator :=
    if is_correct then numerator + (1 - p) * (2/10)
    else numerator + (1 - p) * (1 - 2/10)
  if denominator > 0 then numerator / denominator else p

/-- The posterior exactly as claim C1 words it: division guarded by a
zero-denominator test (posterior = p when the denominator is zero). -/
def claimPosterior (p : ℚ) (is_correct : Bool) : ℚ :=
  if is_correct then
    (if p * (1 - 1/10) + (1 - p) * (2/10) = 0 then p
     else p * (1 - 1/10) / (p * (1 - 1/10) + (1 - p) * (2/10)))
  else
    (if p * (1/10) + (1 - p) * (1 - 2/10) = 0 then p
     else p * (1/10) / (p * (1/10) + (1 - p) * (1 - 2/10)))

/-- The result exactly as claim C1 words it:
`min (post + (1 - post) * 0.3) 0.99`. -/
def claimResult (p : ℚ) (is_correct : Bool) : ℚ :=
  min (claimPosterior p is_correct + (1 - claimPosterior p is_correct) * (3/10)) (99/100)

/-! ### Definitions: recommender (bkt_core.py lines 18-27 and 130-188) -/

/-- A question record; `recommend_question` reads `id` and `knowledge_tags`,
`check_answer` reads `answer_type` and `answer`. -/
structure Question where
  id : String
  knowledge_tags : List String
  answer_type : String
  answer : List Char
deriving DecidableEq

/-- The fields of `BKTUser` that the recommender reads and writes:
`knowledge_state` is Python's insertion-ordered dict, modelled as an
association list (new keys are appended at the end). -/
structure BKTUser where
  default_mastery : ℚ
  knowledge_state : List (String × ℚ)
  answered_questions : List String
deriving DecidableEq

/-- Dict lookup on the knowledge state (first matching key). -/
def ksLookup : List (String × ℚ) → String → Option ℚ
  | [], _ => none
  | (k, v) :: rest, t => if k = t then some v else ksLookup rest t

/-- Python's `dict.get(key, default)`. -/
def ksLookupD (ks : List (String × ℚ)) (t : String) (d : ℚ) : ℚ :=
  (ksLookup ks t).getD d

/-- Python's `key in dict`. -/
def ksHas (ks : List (String × ℚ)) (t : String) : Bool :=
  (ksLookup ks t).isSome

/-- `if tag not in state: state[tag] = default` — a new key is appended. -/
def ksEnsure (ks : List (String × ℚ)) (t : String) (d : ℚ) : List (String × ℚ) :=
  if ksHas ks t then ks else ks ++ [(t, d)]

/-- The per-question tag loop of `recommend_question` (lines 164-168):
materializes each missing tag at the default mastery and sums the tag
masteries, returning the sum and the updated knowledge state. -/
def tagFold (d : ℚ) : List (String × ℚ) → List String → ℚ × List (String × ℚ)
  | ks, [] => (0, ks)
  | ks, t :: ts =>
    let ks1 := ksEnsure ks t d
    let v := ksLookupD ks1 t d
    let (s, ks2) := tagFold d ks1 ts
    (v + s, ks2)

/-- `available_qids is None or qid in available_qids`. -/
def availOk : Option (List String) → String → Prop
  | some a, i => i ∈ a
  | none, _ => True

instance instDecidableAvailOk : (av : Option (List String)) → (i : String) →
    Decidable (availOk av i)
  | some a, i => inferInstanceAs (Decidable (i ∈ a))
  | none, _ => inferInstanceAs (Decidable True)

/-- The candidate-collection loop of `recommend_question` (lines 146-175):
filters by `available_qids` and `answered_questions`, computes each
remaining question's average tag mastery (lazily materializing missing
tags), and keeps the pairs (avg, question) with avg ≤ 0.95, threading the
mutated knowledge state. -/
def buildCandidates (d : ℚ) (answered : List String) (avail : Option (List String)) :
    List Question → List (String × ℚ) → List (ℚ × Question) × List (String × ℚ)
  | [], ks => ([], ks)
  | q :: qs, ks =>
    if ¬ availOk avail q.id then buildCandidates d answered avail qs ks
    else if q.id ∈ answered then buildCandidates d answered avail qs ks
    else
      let (avg, ks1) :=
        match q.knowledge_tags with
        | [] => (ksLookupD ks "default" d, ks)
        | t :: ts =>
          let (s, ks1) := tagFold d ks (t :: ts)
          (s / ((t :: ts).length : ℚ), ks1)
      if avg > 19/20 then buildCandidates d answered avail qs ks1
      else
        let (cs, ks2) := buildCandidates d answered avail qs ks1
        ((avg, q) :: cs, ks2)

/-- Stable insertion of a (mastery, question) pair into a key-sorted list. -/
def insertByKey (x : ℚ × Question) : List (ℚ × Question) → List (ℚ × Question)
  | [] => [x]
  | y :: ys => if x.1 ≤ y.1 then x :: y :: ys else y :: insertByKey x ys

/-- Stable sort by mastery, modelling `candidates.sort(key=lambda x: x[0])`. -/
def sortByKey : List (ℚ × Question) → List (ℚ × Question)
  | [] => []
  | x :: xs => insertByKey x (sortByKey xs)

/-- `recommend_question` (bkt_core.py lines 130-188).  The mutation of
`user.knowledge_state` is returned as the second component; the
`random.choice(best_questions)` call is modelled by indexing the
near-bottom band with `pick % band size`, so that quantifying over `pick`
covers every possible random choice. -/
def recommend_question (u : BKTUser) (all_questions : List Question)
    (available_qids : Option (List String)) (pick : Nat) :
    Option Question × List (String × ℚ) :=
  let (candidates, ks') :=
    buildCandidates u.default_mastery u.answered_questions available_qids
      all_questions u.knowledge_state
  match sortByKey candidates with
  | [] => (none, ks')
  | (m, q0) :: rest =>
    let best_questions :=
      (((m, q0) :: rest).filter (fun x => x.1 ≤ m + 1/20)).map Prod.snd
    (best_questions.get? (pick % best_questions.length), ks')

/-- The average knowledge-tag mastery of a question with respect to a given
knowledge state (the quantity `recommend_question` computes for each
candidate): the default mastery lookup of the implicit "default" KC for an
empty tag list, the tag average otherwise. -/
def pureAvg (ks : List (String × ℚ)) (d : ℚ) (q : Question) : ℚ :=
  match q.knowledge_tags with
  | [] => ksLookupD ks "default" d
  | t :: ts => ((t :: ts).map (fun tag => ksLookupD ks tag d)).sum / ((t :: ts).length : ℚ)

/-- A question survives the recommendation filters: available, not yet
answered, and average tag mastery at most 0.95. -/
def survives (u : BKTUser) (avail : Option (List String)) (q : Question) : Prop :=
  availOk avail q.id ∧ q.id ∉ u.answered_questions ∧
    pureAvg u.knowledge_state u.default_mastery q ≤ 19/20

instance instDecidableSurvives (u : BKTUser) (avail : Option (List String)) (q : Question) :
    Decidable (survives u avail q) :=
  inferInstanceAs (Decidable (availOk avail q.id ∧ q.id ∉ u.answered_questions ∧
    pureAvg u.knowledge_state u.default_mastery q ≤ 19/20))

/-- Concrete user for counterexamples/witnesses: fresh user, default
mastery 0.3. -/
def cexUser : BKTUser := ⟨3/10, [], []⟩

/-- Concrete question with an empty tag list (C3 counterexample). -/
def cexQ : Question := ⟨"q1", [], "string", []⟩

/-- Concrete single-tag question for recommender witnesses. -/
def wQ : Question := ⟨"a", ["K1"], "string", []⟩

/-! ### Definitions: LaTeX-to-SymPy normalizer (bkt_core.py lines 191-273)

Each `re.sub`/`str.replace` of the source becomes a left-to-right,
non-overlapping scanner over `List Char`; a failed match advances one
character, a successful match continues after the matched text (replacement
text is not rescanned), exactly like Python's `re.sub` and `str.replace`.
The regex classes `\d` and `[a-zA-Z]` are modelled as ASCII classes.
Scanners whose match consumes a variable amount of input take a fuel
argument, always called with fuel = length of the input, which every step
(consuming at least one character) can never exhaust. -/

/-- The character `{` (written by code point to keep it out of literals). -/
def lbrace : Char := Char.ofNat 123

/-- The character `}`. -/
def rbrace : Char := Char.ofNat 125

/-- Python `str.strip`/`str()` whitespace, ASCII part. -/
def isPyWs (c : Char) : Bool :=
  c = ' ' || c = '\t' || c = '\n' || c = '\r' || c = Char.ofNat 11 || c = Char.ofNat 12

/-- Python's `str.strip()`. -/
def pyStrip (l : List Char) : List Char :=
  ((l.dropWhile isPyWs).reverse.dropWhile isPyWs).reverse

/-- `str.replace(one-char pattern, multi-char replacement)`. -/
def expandChar (a : Char) (rep : List Char) : List Char → List Char
  | [] => []
  | c :: r => (if c = a then rep else [c]) ++ expandChar a rep r

/-- `str.replace(one-char pattern, one-char replacement)`. -/
def replaceChar (a b : Char) : List Char → List Char
  | [] => []
  | c :: r => (if c = a then b else c) :: replaceChar a b r

/-- `str.replace(one-char pattern, '')`. -/
def removeChar (a : Char) : List Char → List Char
  | [] => []
  | c :: r => if c = a then removeChar a r else c :: removeChar a r

/-- Fueled worker for `str.replace` with pattern `p0 :: ps`: non-overlapping
left-to-right replacement by `rep`. -/
def pyReplaceF (p0 : Char) (ps rep : List Char) : Nat → List Char → List Char
  | _, [] => []
  | 0, l => l
  | fuel+1, c :: rest =>
    if c == p0 && ps.isPrefixOf rest then
      rep ++ pyReplaceF p0 ps rep fuel (rest.drop ps.length)
    else c :: pyReplaceF p0 ps rep fuel rest

/-- `str.replace(p0 :: ps, rep)`. -/
def pyReplace (p0 : Char) (ps rep : List Char) (l : List Char) : List Char :=
  pyReplaceF p0 ps rep l.length l

/-- `str.replace(pat, rep)` for a nonempty literal pattern. -/
def pyReplaceStr (pat rep : List Char) (l : List Char) : List Char :=
  match pat with
  | [] => l
  | p0 :: ps => pyReplace p0 ps rep l

/-- Split at the first `}` — the regex group `([^}]*)\}`: returns the
content before the first `}` and the remainder after it. -/
def breakRBrace : List Char → Option (List Char × List Char)
  | [] => none
  | c :: r =>
    if c = rbrace then some ([], r)
    else
      match breakRBrace r with
      | some (cs, r') => some (c :: cs, r')
      | none => none

/-- The regex group `([^{}]*)` followed by a literal `stop` character: the
brace-free run must be terminated by `stop` before any brace appears. -/
def breakNoBrace (stop : Char) : List Char → Option (List Char × List Char)
  | [] => none
  | c :: r =>
    if c = stop then some ([], r)
    else if c = lbrace || c = rbrace then none
    else
      match breakNoBrace stop r with
      | some (cs, r') => some (c :: cs, r')
      | none => none

/-- Match `cmd{content}` (content = `[^}]*`) at the head of `l`, as in
`\mathrm{...}` / `\text{...}`. -/
def tryCmd1 (cmd : List Char) (l : List Char) : Option (List Char × List Char) :=
  if (cmd ++ [lbrace]).isPrefixOf l then breakRBrace (l.drop (cmd.length + 1)) else none

/-- Match `\frac{a}{b}` (both groups `[^{}]*`) at the head of `l`. -/
def tryFrac (l : List Char) : Option (List Char × List Char × List Char) :=
  if (("\\frac").data ++ [lbrace]).isPrefixOf l then
    match breakNoBrace rbrace (l.drop 6) with
    | some (a, r1) =>
      match r1 with
      | c :: r2 =>
        if c = lbrace then
          match breakNoBrace rbrace r2 with
          | some (b, r') => some (a, b, r')
          | none => none
        else none
      | [] => none
    | none => none
  else none

/-- Match `\sqrt{x}` (group `[^{}]*`) at the head of `l`. -/
def trySqrt (l : List Char) : Option (List Char × List Char) :=
  if (("\\sqrt").data ++ [lbrace]).isPrefixOf l then breakNoBrace rbrace (l.drop 6)
  else none

/-- Match `\sqrt[n]{x}` at the head of `l`.  The group `([^{}]*)` before
`\]\{` matches greedily inside the maximal brace-free run after `\sqrt[`,
so the run must end with `]` and be followed immediately by `{`. -/
def trySqrtN (l : List Char) : Option (List Char × List Char × List Char) :=
  if (("\\sqrt[").data).isPrefixOf l then
    let after := l.drop 6
    let run := after.takeWhile (fun c => !(c == lbrace) && !(c == rbrace))
    match after.drop run.length with
    | c :: rest3 =>
      if c = lbrace then
        match run.getLast? with
        | some ch =>
          if ch = ']' then
            match breakNoBrace rbrace rest3 with
            | some (x, rest') => some (run.dropLast, x, rest')
            | none => none
          else none
        | none => none
      else none
    | [] => none
  else none

/-- Match `^{content}` (content = `[^}]*`) at the head of `l`. -/
def tryCaretBrace (l : List Char) : Option (List Char × List Char) :=
  if ('^' :: [lbrace]).isPrefixOf l then breakRBrace (l.drop 2) else none

/-- `re.sub(r'cmd\{([^}]*)\}', r'\1', s)` (used for `\mathrm`, `\text`). -/
def subCmd1F (cmd : List Char) : Nat → List Char → List Char
  | _, [] => []
  | 0, l => l
  | fuel+1, c :: rest =>
    match tryCmd1 cmd (c :: rest) with
    | some (content, rest') => content ++ subCmd1F cmd fuel rest'
    | none => c :: subCmd1F cmd fuel rest

def subCmd1 (cmd : List Char) (l : List Char) : List Char := subCmd1F cmd l.length l

/-- `re.sub(r'\\frac\{([^{}]*)\}\{([^{}]*)\}', r'((\1)/(\2))', s)`. -/
def subFracF : Nat → List Char → List Char
  | _, [] => []
  | 0, l => l
  | fuel+1, c :: rest =>
    match tryFrac (c :: rest) with
    | some (a, b, rest') =>
      ['(', '('] ++ a ++ [')', '/', '('] ++ b ++ [')', ')'] ++ subFracF fuel rest'
    | none => c :: subFracF fuel rest

def subFrac (l : List Char) : List Char := subFracF l.length l

/-- `re.sub(r'\\sqrt\{([^{}]*)\}', r'sqrt(\1)', s)`. -/
def subSqrtF : Nat → List Char → List Char
  | _, [] => []
  | 0, l => l
  | fuel+1, c :: rest =>
    match trySqrt (c :: rest) with
    | some (x, rest') => ("sqrt(").data ++ x ++ [')'] ++ subSqrtF fuel rest'
    | none => c :: subSqrtF fuel rest

def subSqrt (l : List Char) : List Char := subSqrtF l.length l

/-- `re.sub(r'\\sqrt\[([^{}]*)\]\{([^{}]*)\}', r'((\2)**(1/(\1)))', s)`. -/
def subSqrtNF : Nat → List Char → List Char
  | _, [] => []
  | 0, l => l
  | fuel+1, c :: rest =>
    match trySqrtN (c :: rest) with
    | some (n, x, rest') =>
      ['(', '('] ++ x ++ [')', '*', '*', '(', '1', '/', '('] ++ n ++ [')', ')', ')'] ++
        subSqrtNF fuel rest'
    | none => c :: subSqrtNF fuel rest

def subSqrtN (l : List Char) : List Char := subSqrtNF l.length l

/-- `re.sub(r'\^\{([^}]*)\}', r'**(\1)', s)`. -/
def subCaretBraceF : Nat → List Char → List Char
  | _, [] => []
  | 0, l => l
  | fuel+1, c :: rest =>
    match tryCaretBrace (c :: rest) with
    | some (content, rest') =>
      '*' :: '*' :: '(' :: (content ++ ')' :: subCaretBraceF fuel rest')
    | none => c :: subCaretBraceF fuel rest

def subCaretBrace (l : List Char) : List Char := subCaretBraceF l.length l

/-- ASCII `\d`. -/
def isDigitA (c : Char) : Bool := 48 ≤ c.toNat && c.toNat ≤ 57

/-- ASCII `[a-zA-Z]`. -/
def isAlphaA (c : Char) : Bool :=
  (65 ≤ c.toNat && c.toNat ≤ 90) || (97 ≤ c.toNat && c.toNat ≤ 122)

/-- `re.sub(r'\^(\d)', r'**\1', s)`. -/
def subCaretDigit : List Char → List Char
  | a :: b :: rest =>
    if a == '^' && isDigitA b then '*' :: '*' :: b :: subCaretDigit rest
    else a :: subCaretDigit (b :: rest)
  | l => l

/-- `re.sub(r'(\d)([a-zA-Z])', r'\1*\2', s)` — implicit multiplication. -/
def subDigitAlpha : List Char → List Char
  | a :: b :: rest =>
    if isDigitA a && isAlphaA b then a :: '*' :: b :: subDigitAlpha rest
    else a :: subDigitAlpha (b :: rest)
  | l => l

/-- `re.sub(r'([a-zA-Z])(\d)', r'\1*\2', s)`. -/
def subAlphaDigit : List Char → List Char
  | a :: b :: rest =>
    if isAlphaA a && isDigitA b then a :: '*' :: b :: subAlphaDigit rest
    else a :: subAlphaDigit (b :: rest)
  | l => l

/-- `re.sub(r'\)\(', r')*(', s)` — implicit multiplication between groups. -/
def subParenParen : List Char → List Char
  | a :: b :: rest =>
    if a == ')' && b == '(' then ')' :: '*' :: '(' :: subParenParen rest
    else a :: subParenParen (b :: rest)
  | l => l

/-- Sequential application of `str.replace` pairs. -/
def applySubs : List (List Char × List Char) → List Char → List Char
  | [], l => l
  | (p, r) :: ps, l => applySubs ps (pyReplaceStr p r l)

/-- The `greek_map` replacements (lines 247-254), in dict insertion order. -/
def greekSubs : List (List Char × List Char) :=
  [(("\\alpha").data, ("alpha").data), (("\\beta").data, ("beta").data),
   (("\\gamma").data, ("gamma").data), (("\\delta").data, ("delta").data),
   (("\\epsilon").data, ("epsilon").data), (("\\theta").data, ("theta").data),
   (("\\lambda").data, ("lambda").data), (("\\mu").data, ("mu").data),
   (("\\pi").data, ("pi").data), (("\\sigma").data, ("sigma").data),
   (("\\tau").data, ("tau").data), (("\\phi").data, ("phi").data),
   (("\\omega").data, ("omega").data)]

/-- The function-name replacements (lines 257-259), in list order. -/
def funcSubs : List (List Char × List Char) :=
  [(("\\sin").data, ("sin").data), (("\\cos").data, ("cos").data),
   (("\\tan").data, ("tan").data), (("\\log").data, ("log").data),
   (("\\ln").data, ("ln").data), (("\\exp").data, ("exp").data),
   (("\\sqrt").data, ("sqrt").data), (("\\abs").data, ("abs").data),
   (("\\max").data, ("max").data), (("\\min").data, ("min").data)]

/-- `latex_to_sympy` (bkt_core.py lines 191-273): the full normalization
pipeline, stage for stage in source order. -/
def latex_to_sympy (l : List Char) : List Char :=
  let s := pyStrip l
  let s := expandChar (Char.ofNat 12) ['\\', 'f'] s
  let s := expandChar '\t' ['\\', 't'] s
  let s := expandChar '\r' ['\\', 'r'] s
  let s := expandChar '\n' ['\\', 'n'] s
  let s := subCmd1 (("\\mathrm").data) s
  let s := subCmd1 (("\\text").data) s
  let s := subFrac s
  let s := subSqrt s
  let s := subSqrtN s
  let s := subCaretBrace s
  let s := subCaretDigit s
  let s := subDigitAlpha s
  let s := subAlphaDigit s
  let s := applySubs greekSubs s
  let s := applySubs funcSubs s
  let s := pyReplaceStr (("\\exp").data) (("exp").data) s
  let s := replaceChar lbrace '(' s
  let s := replaceChar rbrace ')' s
  let s := subParenParen s
  let s := removeChar ' ' s
  s

/-- Whether two adjacent characters satisfying `p` and `q` occur in the
list (the generic pattern behind the two-character rewrite stages). -/
def hasPair (p q : Char → Bool) : List Char → Bool
  | a :: b :: rest => (p a && q b) || hasPair p q (b :: rest)
  | _ => false

/-- The composition of the `latex_to_sympy` stages that can act on an input
containing no backslash and no whitespace (all other stages are the
identity there): caret rewriting, implicit multiplication, brace-to-paren
conversion and group multiplication.  Proof helper for the idempotence
analysis. -/
def coreStages (l : List Char) : List Char :=
  subParenParen (replaceChar rbrace ')' (replaceChar lbrace '('
    (subAlphaDigit (subDigitAlpha (subCaretDigit (subCaretBrace l))))))

/-! ### Definitions: answer checker (bkt_core.py lines 276-358) -/

/-- Python `str.lower()`, ASCII part. -/
def pyLower (l : List Char) : List Char := l.map Char.toLower

/-- The `normalize` fallback of the formula branch (lines 343-352). -/
def normalizeAns (l : List Char) : List Char :=
  let s := pyStrip l
  let s := removeChar ' ' s
  let s := removeChar '\\' s
  let s := removeChar lbrace s
  let s := removeChar rbrace s
  let s := expandChar '^' ['*', '*'] s
  let s := expandChar (Char.ofNat 178) ['*', '*', '2'] s
  let s := replaceChar (Char.ofNat 215) '*' s
  let s := replaceChar (Char.ofNat 247) '/' s
  pyLower s

/-- `check_answer` (bkt_core.py lines 276-358).  The SymPy oracles
(`sympify`, `.equals`, and the difference-simplifies-to-zero test) and
Python's `float` parser are abstract parameters over an abstract expression
type `E`; a raised exception is modelled as `none`, and a falsy `.equals`
result (False or sympy's None) as `some false`.  Parse/oracle failures fall
through exactly along the source's try/except structure. -/
def check_answer {E : Type} (sympifyO : List Char → Option E)
    (equalsO : E → E → Option Bool) (simpZeroO : E → E → Option Bool)
    (floatO : List Char → Option ℚ) (question : Question)
    (user_answer : List Char) : Bool :=
  let answer_type := question.answer_type
  let correct_answer := pyStrip question.answer
  let ua := pyStrip user_answer
  if ua = [] then false
  else if answer_type = "numeric" then
    match floatO ua, floatO correct_answer with
    | some u, some c => decide (|u - c| < 1/1000000)
    | _, _ => false
  else if answer_type = "formula" then
    let direct : Bool :=
      match sympifyO ua, sympifyO correct_answer with
      | some eu, some ec => (equalsO eu ec).getD false
      | _, _ => false
    if direct then true
    else
      let user_sympy := latex_to_sympy ua
      let correct_sympy := latex_to_sympy correct_answer
      match sympifyO user_sympy, sympifyO correct_sympy with
      | some eu, some ec =>
        match equalsO eu ec with
        | some true => true
        | some false =>
          match simpZeroO eu ec with
          | some true => true
          | _ => decide (normalizeAns ua = normalizeAns correct_answer)
        | none => decide (normalizeAns ua = normalizeAns correct_answer)
      | _, _ => decide (normalizeAns ua = normalizeAns correct_answer)
  else decide (pyLower ua = pyLower correct_answer)

/-- Oracle that always raises (for witnesses). -/
def sympifyNone : List Char → Option Unit := fun _ => none

/-- Oracle that always raises (for witnesses). -/
def oracleNone : Unit → Unit → Option Bool := fun _ _ => none

/-- Example float parser (for witnesses): parses only the string "3". -/
def floatEx : List Char → Option ℚ := fun l => if l = ['3'] then some 3 else none

/-- Concrete numeric question (for witnesses). -/
def qNum : Question := ⟨"n1", [], "numeric", ['3']⟩

/-! ### Theorems: BKT mastery update -/

theorem denom_pos_correct {p : ℚ} (h0 : 0 ≤ p) :
    0 < p * (1 - 1/10) + (1 - p) * (2/10) := by
  nlinarith

theorem denom_pos_incorrect {p : ℚ} (h1 : p ≤ 1) :
    0 < p * (1/10) + (1 - p) * (1 - 2/10) := by
  nlinarith

theorem posteriorOnly_nonneg {p : ℚ} (h0 : 0 ≤ p) (h1 : p ≤ 1) (c : Bool) :
    0 ≤ posteriorOnly p c := by
  cases c with
  | false =>
    have hd := denom_pos_incorrect h1
    simp only [posteriorOnly, Bool.false_eq_true, if_false]
    rw [if_pos hd]
    apply div_nonneg _ (le_of_lt hd)
    nlinarith
  | true =>
    have hd := denom_pos_correct h0
    simp only [posteriorOnly, if_true]
    rw [if_pos hd]
    apply div_nonneg _ (le_of_lt hd)
    nlinarith

theorem posteriorOnly_le_one {p : ℚ} (h0 : 0 ≤ p) (h1 : p ≤ 1) (c : Bool) :
    posteriorOnly p c ≤ 1 := by
  cases c with
  | false =>
    have hd := denom_pos_incorrect h1
    simp only [posteriorOnly, Bool.false_eq_true, if_false]
    rw [if_pos hd]
    rw [div_le_one hd]
    nlinarith
  | true =>
    have hd := denom_pos_correct h0
    simp only [posteriorOnly, if_true]
    rw [if_pos hd]
    rw [div_le_one hd]
    nlinarith

theorem update_mastery_eq_min {p : ℚ} (c : Bool) :
    update_mastery p c =
      min (posteriorOnly p c + (1 - posteriorOnly p c) * (3/10)) (99/100) := by
  cases c <;> simp [update_mastery, updateMasteryP, posteriorOnly]

theorem claimPosterior_eq_posteriorOnly {p : ℚ} (h0 : 0 ≤ p) (h1 : p ≤ 1) (c : Bool) :
    claimPosterior p c = posteriorOnly p c := by
  cases c with
  | false =>
    have hd := denom_pos_incorrect h1
    simp only [claimPosterior, posteriorOnly, Bool.false_eq_true, if_false]
    rw [if_neg (ne_of_gt hd), if_pos hd]
  | true =>
    have hd := denom_pos_correct h0
    simp only [claimPosterior, posteriorOnly, if_true]
    rw [if_neg (ne_of_gt hd), if_pos hd]

/-- C1: for every probability p in [0,1] and every boolean correct,
`update_mastery p correct` with the default parameters equals
`min (post + (1-post)*0.3) 0.99`, where `post` is the Bayes posterior of
the claim (with the zero-denominator guard returning p). -/
theorem claim_C1 (p : ℚ) (h0 : 0 ≤ p) (h1 : p ≤ 1) (c : Bool) :
    update_mastery p c = claimResult p c := by
  rw [update_mastery_eq_min, claimResult, claimPosterior_eq_posteriorOnly h0 h1]

theorem claim_C1_witness :
    0 ≤ (1/2 : ℚ) ∧ (1/2 : ℚ) ≤ 1 ∧
      update_mastery (1/2) true = claimResult (1/2) true :=
  ⟨by norm_num, by norm_num, claim_C1 (1/2) (by norm_num) (by norm_num) true⟩

/-- C5: for every p in [0,1] and every boolean correct, the value of
`update_mastery p correct` with the default parameters lies in [0, 0.99]. -/
theorem claim_C5 (p : ℚ) (h0 : 0 ≤ p) (h1 : p ≤ 1) (c : Bool) :
    0 ≤ update_mastery p c ∧ update_mastery p c ≤ 99/100 := by
  rw [update_mastery_eq_min]
  refine ⟨le_min ?_ (by norm_num), min_le_right _ _⟩
  have ha := posteriorOnly_nonneg h0 h1 c
  have hb := posteriorOnly_le_one h0 h1 c
  nlinarith

theorem claim_C5_witness :
    0 ≤ (1/2 : ℚ) ∧ (1/2 : ℚ) ≤ 1 ∧
      (0 ≤ update_mastery (1/2) false ∧ update_mastery (1/2) false ≤ 99/100) :=
  ⟨by norm_num, by norm_num, claim_C5 (1/2) (by norm_num) (by norm_num) false⟩

/-- C6 counterexample: with slip 0.1, guess 0, prior p = 0 and a correct
answer the Bayes denominator is zero, yet `update_mastery` (with the default
learn rate 0.3) returns 0.3, not the unmodified prior 0: the code still
applies the learning increment after the zero-denominator guard. -/
theorem claim_C6_counterexample :
    bktDenominator (1/10) 0 0 true = 0 ∧
      updateMasteryP (3/10) (1/10) 0 0 true ≠ 0 := by
  constructor
  · norm_num [bktDenominator]
  · norm_num [updateMasteryP]

/-- C6 (amended): whenever the Bayes-update denominator is zero,
`update_mastery` uses the unmodified prior p as the posterior, and then
still applies the learning increment and the 0.99 clamp, returning
`min (p + (1-p)·learnRate) 0.99`. -/
theorem claim_C6_amended (learn slip guess p : ℚ) (c : Bool)
    (hd : bktDenominator slip guess p c = 0) :
    updateMasteryP learn slip guess p c = min (p + (1 - p) * learn) (99/100) := by
  cases c with
  | false =>
    simp only [bktDenominator, Bool.false_eq_true, if_false] at hd
    simp only [updateMasteryP, Bool.false_eq_true, if_false]
    rw [if_neg (by rw [hd]; exact lt_irrefl 0)]
  | true =>
    simp only [bktDenominator, if_true] at hd
    simp only [updateMasteryP, if_true]
    rw [if_neg (by rw [hd]; exact lt_irrefl 0)]

theorem claim_C6_amended_witness :
    bktDenominator (1/10) 0 0 true = 0 ∧
      updateMasteryP (3/10) (1/10) 0 0 true = min ((0:ℚ) + (1 - 0) * (3/10)) (99/100) :=
  ⟨by norm_num [bktDenominator],
   claim_C6_amended (3/10) (1/10) 0 0 true (by norm_num [bktDenominator])⟩

/-- C9 counterexample: at p = 0.99 the raw posterior of a correct answer is
891/893 > 0.99, so the clamped result of `update_mastery` (= 0.99) is
strictly smaller than the value obtained without the learning increment. -/
theorem claim_C9_counterexample :
    update_mastery (99/100) true < posteriorOnly (99/100) true := by
  have h1 : posteriorOnly (99/100) true = 891/893 := by
    norm_num [posteriorOnly]
  have h2 : update_mastery (99/100) true = 99/100 := by
    rw [update_mastery_eq_min, h1]
    norm_num
  rw [h1, h2]
  norm_num

/-- C9 (amended): for every p in [0,1), `update_mastery p true` with the
default parameters is at least `min post 0.99` where `post` is the posterior
obtained without the learning increment (the clamp at 0.99 can cut below the
raw posterior when p is close to 1), and the result is at most 0.99. -/
theorem claim_C9_amended (p : ℚ) (h0 : 0 ≤ p) (h1 : p < 1) :
    min (posteriorOnly p true) (99/100) ≤ update_mastery p true ∧
      update_mastery p true ≤ 99/100 := by
  rw [update_mastery_eq_min]
  constructor
  · apply min_le_min _ le_rfl
    have hb := posteriorOnly_le_one h0 (le_of_lt h1) true
    nlinarith
  · exact min_le_right _ _

theorem claim_C9_amended_witness :
    0 ≤ (1/2 : ℚ) ∧ (1/2 : ℚ) < 1 ∧
      (min (posteriorOnly (1/2) true) (99/100) ≤ update_mastery (1/2) true ∧
        update_mastery (1/2) true ≤ 99/100) :=
  ⟨by norm_num, by norm_num, claim_C9_amended (1/2) (by norm_num) (by norm_num)⟩

/-! ### Theorems: knowledge-state operations -/

theorem ksLookup_append (ks : List (String × ℚ)) (t : String) (d : ℚ) (k : String) :
    ksLookup (ks ++ [(t, d)]) k =
      match ksLookup ks k with
      | some v => some v
      | none => if t = k then some d else none := by
  induction ks with
  | nil => simp [ksLookup]
  | cons hd tl ih =>
    obtain ⟨k0, v0⟩ := hd
    by_cases h : k0 = k
    · simp [ksLookup, h]
    · rw [List.cons_append]
      simp only [ksLookup, if_neg h]
      exact ih

theorem ksLookupD_ksEnsure (ks : List (String × ℚ)) (t k : String) (d : ℚ) :
    ksLookupD (ksEnsure ks t d) k d = ksLookupD ks k d := by
  unfold ksEnsure
  split
  · rfl
  · unfold ksLookupD
    rw [ksLookup_append]
    cases h : ksLookup ks k
    · by_cases ht : t = k <;> simp [ht]
    · simp

theorem ksHas_ksEnsure_mono (ks : List (String × ℚ)) (t k : String) (d : ℚ)
    (h : ksHas ks k = true) : ksHas (ksEnsure ks t d) k = true := by
  unfold ksEnsure
  split
  · exact h
  · unfold ksHas at h ⊢
    rw [ksLookup_append]
    cases hh : ksLookup ks k
    · rw [hh] at h; simp at h
    · simp

theorem ksHas_ksEnsure_self (ks : List (String × ℚ)) (t : String) (d : ℚ) :
    ksHas (ksEnsure ks t d) t = true := by
  unfold ksEnsure
  split
  · assumption
  · unfold ksHas
    rw [ksLookup_append]
    cases hh : ksLookup ks t
    · simp
    · simp

theorem tagFold_lookupD (d : ℚ) (ts : List String) :
    ∀ ks k, ksLookupD (tagFold d ks ts).2 k d = ksLookupD ks k d := by
  induction ts with
  | nil => intro ks k; rfl
  | cons t ts ih =>
    intro ks k
    cases hpr : tagFold d (ksEnsure ks t d) ts with
    | mk s ks2 =>
      have h1 := ih (ksEnsure ks t d) k
      rw [hpr] at h1
      simp only [tagFold, hpr]
      rw [h1, ksLookupD_ksEnsure]

theorem tagFold_fst (d : ℚ) (ts : List String) :
    ∀ ks, (tagFold d ks ts).1 = (ts.map (fun t => ksLookupD ks t d)).sum := by
  induction ts with
  | nil => intro ks; simp [tagFold]
  | cons t ts ih =>
    intro ks
    cases hpr : tagFold d (ksEnsure ks t d) ts with
    | mk s ks2 =>
      have h1 : s = (List.map (fun t' => ksLookupD (ksEnsure ks t d) t' d) ts).sum := by
        have := ih (ksEnsure ks t d)
        rw [hpr] at this
        exact this
      simp only [tagFold, hpr, List.map_cons, List.sum_cons]
      rw [ksLookupD_ksEnsure]
      congr 1
      rw [h1]
      have he : (fun t' => ksLookupD (ksEnsure ks t d) t' d) =
          fun t' => ksLookupD ks t' d :=
        funext fun t' => ksLookupD_ksEnsure ks t t' d
      rw [he]

theorem tagFold_has_mono (d : ℚ) (ts : List String) :
    ∀ ks k, ksHas ks k = true → ksHas (tagFold d ks ts).2 k = true := by
  induction ts with
  | nil => intro ks k h; exact h
  | cons t ts ih =>
    intro ks k h
    cases hpr : tagFold d (ksEnsure ks t d) ts with
    | mk s ks2 =>
      have h1 := ih (ksEnsure ks t d) k (ksHas_ksEnsure_mono ks t k d h)
      rw [hpr] at h1
      simp only [tagFold, hpr]
      exact h1

theorem tagFold_has (d : ℚ) (ts : List String) :
    ∀ ks t, t ∈ ts → ksHas (tagFold d ks ts).2 t = true := by
  induction ts with
  | nil => intro ks t ht; cases ht
  | cons t0 ts ih =>
    intro ks t ht
    cases hpr : tagFold d (ksEnsure ks t0 d) ts with
    | mk s ks2 =>
      simp only [tagFold, hpr]
      rcases List.mem_cons.mp ht with h | h
      · subst h
        have h1 := tagFold_has_mono d ts (ksEnsure ks t d) t (ksHas_ksEnsure_self ks t d)
        rw [hpr] at h1
        exact h1
      · have h1 := ih (ksEnsure ks t0 d) t h
        rw [hpr] at h1
        exact h1

theorem pureAvg_congr (ks1 ks2 : List (String × ℚ)) (d : ℚ) (q : Question)
    (h : ∀ k, ksLookupD ks1 k d = ksLookupD ks2 k d) :
    pureAvg ks1 d q = pureAvg ks2 d q := by
  unfold pureAvg
  cases htags : q.knowledge_tags with
  | nil => exact h "default"
  | cons t ts =>
    have he : (fun tag => ksLookupD ks1 tag d) = fun tag => ksLookupD ks2 tag d :=
      funext fun tag => h tag
    rw [he]

/-! ### Theorems: candidate collection -/

theorem bc_lookupD (d : ℚ) (ans : List String) (avail : Option (List String))
    (qs : List Question) :
    ∀ ks k, ksLookupD (buildCandidates d ans avail qs ks).2 k d = ksLookupD ks k d := by
  induction qs with
  | nil => intro ks k; rfl
  | cons q qs ih =>
    intro ks k
    simp only [buildCandidates]
    by_cases hav : availOk avail q.id
    · rw [if_neg (not_not_intro hav)]
      by_cases hans : q.id ∈ ans
      · rw [if_pos hans]; exact ih ks k
      · rw [if_neg hans]
        cases htags : q.knowledge_tags with
        | nil =>
          simp only
          by_cases havg : ksLookupD ks "default" d > 19/20
          · rw [if_pos havg]; exact ih ks k
          · rw [if_neg havg]
            cases hbc : buildCandidates d ans avail qs ks with
            | mk cs ks2 =>
              have h1 := ih ks k
              rw [hbc] at h1
              exact h1
        | cons t ts =>
          cases hpr : tagFold d ks (t :: ts) with
          | mk s ks1 =>
            simp only [hpr]
            have hks1 : ∀ k', ksLookupD ks1 k' d = ksLookupD ks k' d := by
              intro k'
              have := tagFold_lookupD d (t :: ts) ks k'
              rw [hpr] at this
              exact this
            by_cases havg : s / ((t :: ts).length : ℚ) > 19/20
            · rw [if_pos havg]
              rw [ih ks1 k]
              exact hks1 k
            · rw [if_neg havg]
              cases hbc : buildCandidates d ans avail qs ks1 with
              | mk cs ks2 =>
                have h1 := ih ks1 k
                rw [hbc] at h1
                show ksLookupD ks2 k d = ksLookupD ks k d
                exact h1.trans (hks1 k)
    · rw [if_pos hav]; exact ih ks k

theorem bc_has_mono (d : ℚ) (ans : List String) (avail : Option (List String))
    (qs : List Question) :
    ∀ ks k, ksHas ks k = true →
      ksHas (buildCandidates d ans avail qs ks).2 k = true := by
  induction qs with
  | nil => intro ks k h; exact h
  | cons q qs ih =>
    intro ks k h
    simp only [buildCandidates]
    by_cases hav : availOk avail q.id
    · rw [if_neg (not_not_intro hav)]
      by_cases hans : q.id ∈ ans
      · rw [if_pos hans]; exact ih ks k h
      · rw [if_neg hans]
        cases htags : q.knowledge_tags with
        | nil =>
          simp only
          by_cases havg : ksLookupD ks "default" d > 19/20
          · rw [if_pos havg]; exact ih ks k h
          · rw [if_neg havg]
            cases hbc : buildCandidates d ans avail qs ks with
            | mk cs ks2 =>
              have h1 := ih ks k h
              rw [hbc] at h1
              exact h1
        | cons t ts =>
          cases hpr : tagFold d ks (t :: ts) with
          | mk s ks1 =>
            simp only [hpr]
            have hks1 : ksHas ks1 k = true := by
              have := tagFold_has_mono d (t :: ts) ks k h
              rw [hpr] at this
              exact this
            by_cases havg : s / ((t :: ts).length : ℚ) > 19/20
            · rw [if_pos havg]; exact ih ks1 k hks1
            · rw [if_neg havg]
              cases hbc : buildCandidates d ans avail qs ks1 with
              | mk cs ks2 =>
                have h1 := ih ks1 k hks1
                rw [hbc] at h1
                exact h1
    · rw [if_pos hav]; exact ih ks k h

theorem bc_has_tags (d : ℚ) (ans : List String) (avail : Option (List String))
    (qs : List Question) :
    ∀ ks q, q ∈ qs → availOk avail q.id → q.id ∉ ans →
      ∀ t ∈ q.knowledge_tags, ksHas (buildCandidates d ans avail qs ks).2 t = true := by
  induction qs with
  | nil => intro ks q hq; cases hq
  | cons q0 qs ih =>
    intro ks q hq hav hans t ht
    rcases List.mem_cons.mp hq with heq | hmem
    · subst heq
      simp only [buildCandidates]
      rw [if_neg (not_not_intro hav), if_neg hans]
      cases htags : q.knowledge_tags with
      | nil => rw [htags] at ht; cases ht
      | cons t0 ts =>
        rw [htags] at ht
        cases hpr : tagFold d ks (t0 :: ts) with
        | mk s ks1 =>
          simp only [hpr]
          have hks1 : ksHas ks1 t = true := by
            have := tagFold_has d (t0 :: ts) ks t ht
            rw [hpr] at this
            exact this
          by_cases havg : s / ((t0 :: ts).length : ℚ) > 19/20
          · rw [if_pos havg]; exact bc_has_mono d ans avail qs ks1 t hks1
          · rw [if_neg havg]
            cases hbc : buildCandidates d ans avail qs ks1 with
            | mk cs ks2 =>
              have h1 := bc_has_mono d ans avail qs ks1 t hks1
              rw [hbc] at h1
              exact h1
    · simp only [buildCandidates]
      by_cases hav0 : availOk avail q0.id
      · rw [if_neg (not_not_intro hav0)]
        by_cases hans0 : q0.id ∈ ans
        · rw [if_pos hans0]; exact ih ks q hmem hav hans t ht
        · rw [if_neg hans0]
          cases htags : q0.knowledge_tags with
          | nil =>
            simp only
            by_cases havg : ksLookupD ks "default" d > 19/20
            · rw [if_pos havg]; exact ih ks q hmem hav hans t ht
            · rw [if_neg havg]
              cases hbc : buildCandidates d ans avail qs ks with
              | mk cs ks2 =>
                have h1 := ih ks q hmem hav hans t ht
                rw [hbc] at h1
                exact h1
          | cons t0 ts =>
            cases hpr : tagFold d ks (t0 :: ts) with
            | mk s ks1 =>
              simp only [hpr]
              by_cases havg : s / ((t0 :: ts).length : ℚ) > 19/20
              · rw [if_pos havg]; exact ih ks1 q hmem hav hans t ht
              · rw [if_neg havg]
                cases hbc : buildCandidates d ans avail qs ks1 with
                | mk cs ks2 =>
                  have h1 := ih ks1 q hmem hav hans t ht
                  rw [hbc] at h1
                  exact h1
      · rw [if_pos hav0]; exact ih ks q hmem hav hans t ht

theorem bc_mem (d : ℚ) (ans : List String) (avail : Option (List String))
    (qs : List Question) :
    ∀ ks m q, (m, q) ∈ (buildCandidates d ans avail qs ks).1 →
      q ∈ qs ∧ availOk avail q.id ∧ q.id ∉ ans ∧ m = pureAvg ks d q ∧ m ≤ 19/20 := by
  induction qs with
  | nil => intro ks m q h; cases h
  | cons q0 qs ih =>
    intro ks m q hmem
    simp only [buildCandidates] at hmem
    by_cases hav0 : availOk avail q0.id
    · rw [if_neg (not_not_intro hav0)] at hmem
      by_cases hans0 : q0.id ∈ ans
      · rw [if_pos hans0] at hmem
        obtain ⟨h1, h2, h3, h4, h5⟩ := ih ks m q hmem
        exact ⟨List.mem_cons_of_mem _ h1, h2, h3, h4, h5⟩
      · rw [if_neg hans0] at hmem
        cases htags : q0.knowledge_tags with
        | nil =>
          rw [htags] at hmem
          simp only at hmem
          by_cases havg : ksLookupD ks "default" d > 19/20
          · rw [if_pos havg] at hmem
            obtain ⟨h1, h2, h3, h4, h5⟩ := ih ks m q hmem
            exact ⟨List.mem_cons_of_mem _ h1, h2, h3, h4, h5⟩
          · rw [if_neg havg] at hmem
            cases hbc : buildCandidates d ans avail qs ks with
            | mk cs ks2 =>
              rw [hbc] at hmem
              simp only at hmem
              rcases List.mem_cons.mp hmem with heq | htail
              · obtain ⟨hm, hq⟩ := Prod.mk.injEq .. ▸ heq
                subst hq
                refine ⟨List.mem_cons_self _ _, hav0, hans0, ?_, ?_⟩
                · rw [hm]; unfold pureAvg; rw [htags]
                · rw [hm]; exact le_of_not_lt havg
              · have h1 := ih ks m q (by rw [hbc]; exact htail)
                obtain ⟨h1, h2, h3, h4, h5⟩ := h1
                exact ⟨List.mem_cons_of_mem _ h1, h2, h3, h4, h5⟩
        | cons t ts =>
          rw [htags] at hmem
          simp only at hmem
          cases hpr : tagFold d ks (t :: ts) with
          | mk s ks1 =>
            rw [hpr] at hmem
            simp only at hmem
            have hks1 : ∀ k', ksLookupD ks1 k' d = ksLookupD ks k' d := by
              intro k'
              have := tagFold_lookupD d (t :: ts) ks k'
              rw [hpr] at this
              exact this
            have havg_eq : s / ((t :: ts).length : ℚ) = pureAvg ks d q0 := by
              unfold pureAvg
              rw [htags]
              have hs : s = ((t :: ts).map (fun tag => ksLookupD ks tag d)).sum := by
                have := tagFold_fst d (t :: ts) ks
                rw [hpr] at this
                exact this
              rw [hs]
            by_cases havg : s / ((t :: ts).length : ℚ) > 19/20
            · rw [if_pos havg] at hmem
              obtain ⟨h1, h2, h3, h4, h5⟩ := ih ks1 m q hmem
              refine ⟨List.mem_cons_of_mem _ h1, h2, h3, ?_, h5⟩
              rw [h4]
              exact pureAvg_congr ks1 ks d q hks1
            · rw [if_neg havg] at hmem
              cases hbc : buildCandidates d ans avail qs ks1 with
              | mk cs ks2 =>
                rw [hbc] at hmem
                simp only at hmem
                rcases List.mem_cons.mp hmem with heq | htail
                · obtain ⟨hm, hq⟩ := Prod.mk.injEq .. ▸ heq
                  subst hq
                  refine ⟨List.mem_cons_self _ _, hav0, hans0, ?_, ?_⟩
                  · rw [hm, havg_eq]
                  · rw [hm]
                    exact le_of_not_lt havg
                · have h1 := ih ks1 m q (by rw [hbc]; exact htail)
                  obtain ⟨h1, h2, h3, h4, h5⟩ := h1
                  refine ⟨List.mem_cons_of_mem _ h1, h2, h3, ?_, h5⟩
                  rw [h4]
                  exact pureAvg_congr ks1 ks d q hks1
    · rw [if_pos hav0] at hmem
      obtain ⟨h1, h2, h3, h4, h5⟩ := ih ks m q hmem
      exact ⟨List.mem_cons_of_mem _ h1, h2, h3, h4, h5⟩

theorem bc_mem_complete (d : ℚ) (ans : List String) (avail : Option (List String))
    (qs : List Question) :
    ∀ ks q, q ∈ qs → availOk avail q.id → q.id ∉ ans →
      pureAvg ks d q ≤ 19/20 →
      (pureAvg ks d q, q) ∈ (buildCandidates d ans avail qs ks).1 := by
  induction qs with
  | nil => intro ks q hq; cases hq
  | cons q0 qs ih =>
    intro ks q hq hav hans hle
    simp only [buildCandidates]
    rcases List.mem_cons.mp hq with heq | hmem
    · subst heq
      rw [if_neg (not_not_intro hav), if_neg hans]
      cases htags : q.knowledge_tags with
      | nil =>
        simp only
        have havg_eq : ksLookupD ks "default" d = pureAvg ks d q := by
          unfold pureAvg; rw [htags]
        rw [havg_eq]
        rw [if_neg (not_lt_of_le hle)]
        cases hbc : buildCandidates d ans avail qs ks with
        | mk cs ks2 =>
          exact List.mem_cons_self _ _
      | cons t ts =>
        simp only
        cases hpr : tagFold d ks (t :: ts) with
        | mk s ks1 =>
          simp only
          have havg_eq : s / ((t :: ts).length : ℚ) = pureAvg ks d q := by
            unfold pureAvg
            rw [htags]
            have hs : s = ((t :: ts).map (fun tag => ksLookupD ks tag d)).sum := by
              have := tagFold_fst d (t :: ts) ks
              rw [hpr] at this
              exact this
            rw [hs]
          rw [havg_eq]
          rw [if_neg (not_lt_of_le hle)]
          cases hbc : buildCandidates d ans avail qs ks1 with
          | mk cs ks2 =>
            exact List.mem_cons_self _ _
    · by_cases hav0 : availOk avail q0.id
      · rw [if_neg (not_not_intro hav0)]
        by_cases hans0 : q0.id ∈ ans
        · rw [if_pos hans0]; exact ih ks q hmem hav hans hle
        · rw [if_neg hans0]
          cases htags : q0.knowledge_tags with
          | nil =>
            simp only
            by_cases havg : ksLookupD ks "default" d > 19/20
            · rw [if_pos havg]; exact ih ks q hmem hav hans hle
            · rw [if_neg havg]
              cases hbc : buildCandidates d ans avail qs ks with
              | mk cs ks2 =>
                have h1 := ih ks q hmem hav hans hle
                rw [hbc] at h1
                exact List.mem_cons_of_mem _ h1
          | cons t ts =>
            simp only
            cases hpr : tagFold d ks (t :: ts) with
            | mk s ks1 =>
              simp only
              have hks1 : ∀ k', ksLookupD ks1 k' d = ksLookupD ks k' d := by
                intro k'
                have := tagFold_lookupD d (t :: ts) ks k'
                rw [hpr] at this
                exact this
              have hpa : pureAvg ks1 d q = pureAvg ks d q :=
                pureAvg_congr ks1 ks d q hks1
              by_cases havg : s / ((t :: ts).length : ℚ) > 19/20
              · rw [if_pos havg]
                have h1 := ih ks1 q hmem hav hans (by rw [hpa]; exact hle)
                rw [hpa] at h1
                exact h1
              · rw [if_neg havg]
                cases hbc : buildCandidates d ans avail qs ks1 with
                | mk cs ks2 =>
                  have h1 := ih ks1 q hmem hav hans (by rw [hpa]; exact hle)
                  rw [hpa, hbc] at h1
                  exact List.mem_cons_of_mem _ h1
      · rw [if_pos hav0]; exact ih ks q hmem hav hans hle

/-! ### Theorems: sorting and band selection -/

theorem mem_insertByKey (x y : ℚ × Question) (l : List (ℚ × Question)) :
    x ∈ insertByKey y l ↔ x = y ∨ x ∈ l := by
  induction l with
  | nil => simp [insertByKey]
  | cons z zs ih =>
    simp only [insertByKey]
    split
    · simp [List.mem_cons]
    · simp only [List.mem_cons, ih]
      tauto

theorem insertByKey_ne_nil (x : ℚ × Question) (l : List (ℚ × Question)) :
    insertByKey x l ≠ [] := by
  cases l with
  | nil => simp [insertByKey]
  | cons z zs =>
    simp only [insertByKey]
    split <;> simp

theorem sortByKey_eq_nil (l : List (ℚ × Question)) (h : sortByKey l = []) : l = [] := by
  cases l with
  | nil => rfl
  | cons x xs =>
    simp only [sortByKey] at h
    exact absurd h (insertByKey_ne_nil x (sortByKey xs))

theorem mem_sortByKey (x : ℚ × Question) (l : List (ℚ × Question)) :
    x ∈ sortByKey l ↔ x ∈ l := by
  induction l with
  | nil => simp [sortByKey]
  | cons y ys ih =>
    simp only [sortByKey, mem_insertByKey, ih, List.mem_cons]

theorem pairwise_insertByKey (x : ℚ × Question) (l : List (ℚ × Question))
    (h : l.Pairwise (fun a b => a.1 ≤ b.1)) :
    (insertByKey x l).Pairwise (fun a b => a.1 ≤ b.1) := by
  induction l with
  | nil => simp [insertByKey]
  | cons y ys ih =>
    rw [List.pairwise_cons] at h
    obtain ⟨hy, hys⟩ := h
    simp only [insertByKey]
    split
    · rename_i hle
      rw [List.pairwise_cons]
      refine ⟨?_, ?_⟩
      · intro z hz
        rcases List.mem_cons.mp hz with rfl | hz
        · exact hle
        · exact le_trans hle (hy z hz)
      · rw [List.pairwise_cons]
        exact ⟨hy, hys⟩
    · rename_i hnle
      rw [List.pairwise_cons]
      refine ⟨?_, ih hys⟩
      intro z hz
      rcases (mem_insertByKey z x ys).mp hz with rfl | hz
      · exact le_of_not_le hnle
      · exact hy z hz

theorem pairwise_sortByKey (l : List (ℚ × Question)) :
    (sortByKey l).Pairwise (fun a b => a.1 ≤ b.1) := by
  induction l with
  | nil => simp [sortByKey]
  | cons x xs ih => exact pairwise_insertByKey x (sortByKey xs) ih

theorem sortByKey_head_min (cands : List (ℚ × Question)) (m0 : ℚ) (q0 : Question)
    (rest : List (ℚ × Question)) (hs : sortByKey cands = (m0, q0) :: rest) :
    ∀ p ∈ cands, m0 ≤ p.1 := by
  intro p hp
  have hps : p ∈ sortByKey cands := (mem_sortByKey p cands).mpr hp
  rw [hs] at hps
  rcases List.mem_cons.mp hps with rfl | hrest
  · exact le_rfl
  · have hpw := pairwise_sortByKey cands
    rw [hs, List.pairwise_cons] at hpw
    exact hpw.1 p hrest

theorem recommend_snd (u : BKTUser) (qs : List Question) (avail : Option (List String))
    (pick : Nat) :
    (recommend_question u qs avail pick).2 =
      (buildCandidates u.default_mastery u.answered_questions avail qs
        u.knowledge_state).2 := by
  unfold recommend_question
  cases hbc : buildCandidates u.default_mastery u.answered_questions avail qs
      u.knowledge_state with
  | mk cands ks2 =>
    simp only
    cases hs : sortByKey cands with
    | nil => rfl
    | cons hd rest => cases hd; rfl

theorem recommend_some_spec (u : BKTUser) (qs : List Question) (avail : Option (List String))
    (pick : Nat) (q : Question) (ks' : List (String × ℚ))
    (h : recommend_question u qs avail pick = (some q, ks')) :
    ∃ cands m0 q0 rest m,
      buildCandidates u.default_mastery u.answered_questions avail qs u.knowledge_state
        = (cands, ks') ∧
      sortByKey cands = (m0, q0) :: rest ∧
      (m, q) ∈ cands ∧ m ≤ m0 + 1/20 := by
  cases hbc : buildCandidates u.default_mastery u.answered_questions avail qs
      u.knowledge_state with
  | mk cands ks2 =>
    unfold recommend_question at h
    rw [hbc] at h
    simp only at h
    cases hs : sortByKey cands with
    | nil =>
      rw [hs] at h
      simp only [Prod.mk.injEq] at h
      exact absurd h.1 (by simp)
    | cons hd rest =>
      obtain ⟨m0, q0⟩ := hd
      rw [hs] at h
      simp only [Prod.mk.injEq] at h
      obtain ⟨hget, hks⟩ := h
      subst hks
      have hqmem := List.get?_mem hget
      obtain ⟨x, hxf, hxq⟩ := List.mem_map.mp hqmem
      obtain ⟨hxs, hxp⟩ := List.mem_filter.mp hxf
      refine ⟨cands, m0, q0, rest, x.1, rfl, hs, ?_, ?_⟩
      · have hx1 : x ∈ sortByKey cands := by rw [hs]; exact hxs
        have hx2 := (mem_sortByKey x cands).mp hx1
        have hx3 : x = (x.1, q) := by
          rw [← hxq]
        rw [← hx3]
        exact hx2
      · exact of_decide_eq_true hxp

/-- C2: whenever `recommend_question` returns a question, that question is
not in `answered_questions`, is allowed by `available_qids` when that set is
provided, and its average KC-tag mastery over the returned (materialized)
knowledge state does not exceed 0.95. -/
theorem claim_C2 (u : BKTUser) (qs : List Question) (avail : Option (List String))
    (pick : Nat) (q : Question) (ks' : List (String × ℚ))
    (h : recommend_question u qs avail pick = (some q, ks')) :
    q.id ∉ u.answered_questions ∧ availOk avail q.id ∧
      pureAvg ks' u.default_mastery q ≤ 19/20 := by
  obtain ⟨cands, m0, q0, rest, m, hbc, hs, hmem, hband⟩ :=
    recommend_some_spec u qs avail pick q ks' h
  obtain ⟨hq, hav, hans, hm, hle⟩ :=
    bc_mem u.default_mastery u.answered_questions avail qs u.knowledge_state m q
      (by rw [hbc]; exact hmem)
  refine ⟨hans, hav, ?_⟩
  have hpa : pureAvg ks' u.default_mastery q =
      pureAvg u.knowledge_state u.default_mastery q := by
    apply pureAvg_congr
    intro k
    have hinv := bc_lookupD u.default_mastery u.answered_questions avail qs
      u.knowledge_state k
    rw [hbc] at hinv
    exact hinv
  rw [hpa, ← hm]
  exact hle

theorem recommend_eval_concrete :
    recommend_question cexUser [wQ] none 0 = (some wQ, [("K1", 3/10)]) := by
  norm_num [recommend_question, buildCandidates, tagFold, ksEnsure, ksHas, ksLookup,
    ksLookupD, sortByKey, insertByKey, cexUser, wQ, availOk, List.filter_cons, List.get?]

theorem claim_C2_witness :
    recommend_question cexUser [wQ] none 0 = (some wQ, [("K1", 3/10)]) ∧
      (wQ.id ∉ cexUser.answered_questions ∧ availOk none wQ.id ∧
        pureAvg [("K1", 3/10)] cexUser.default_mastery wQ ≤ 19/20) :=
  ⟨recommend_eval_concrete,
   claim_C2 cexUser [wQ] none 0 wQ [("K1", 3/10)] recommend_eval_concrete⟩

/-- C3 counterexample: a fresh user and a pool with a single empty-tag
question.  The question is a considered candidate (it is even returned), yet
after the call the knowledge state is still empty: the implicit "default" KC
is read with `dict.get` but never materialized, contradicting the claim that
an entry is created for every KC referenced by every considered candidate. -/
theorem claim_C3_counterexample :
    (recommend_question cexUser [cexQ] none 0).1 = some cexQ ∧
      (recommend_question cexUser [cexQ] none 0).2 = [] := by
  constructor <;>
    norm_num [recommend_question, buildCandidates, tagFold, ksEnsure, ksHas, ksLookup,
      ksLookupD, sortByKey, insertByKey, cexUser, cexQ, availOk, List.filter_cons,
      List.get?]

/-- C3 (amended): after any call to `recommend_question`, the knowledge
state contains an entry for every KC *tag* of every candidate that passed
the availability and answered filters and has a nonempty tag list — at the
default mastery if previously absent, at the previous value otherwise.  For
a candidate with an empty tag list the implicit "default" KC is only read
(with a default), not materialized. -/
theorem claim_C3_amended (u : BKTUser) (qs : List Question) (avail : Option (List String))
    (pick : Nat) (res : Option Question) (ks' : List (String × ℚ))
    (h : recommend_question u qs avail pick = (res, ks'))
    (q : Question) (hq : q ∈ qs) (hav : availOk avail q.id)
    (hans : q.id ∉ u.answered_questions) :
    ∀ t ∈ q.knowledge_tags,
      ksLookup ks' t = some (ksLookupD u.knowledge_state t u.default_mastery) := by
  intro t ht
  have hks : ks' = (buildCandidates u.default_mastery u.answered_questions avail qs
      u.knowledge_state).2 := by
    have h2 := recommend_snd u qs avail pick
    rw [h] at h2
    exact h2
  have hhas := bc_has_tags u.default_mastery u.answered_questions avail qs
    u.knowledge_state q hq hav hans t ht
  rw [← hks] at hhas
  have hinv := bc_lookupD u.default_mastery u.answered_questions avail qs
    u.knowledge_state t
  rw [← hks] at hinv
  unfold ksHas at hhas
  cases hv : ksLookup ks' t with
  | none => rw [hv] at hhas; simp at hhas
  | some v =>
    have hv' : ksLookupD ks' t u.default_mastery = v := by
      unfold ksLookupD; rw [hv]; rfl
    rw [← hinv, hv']

theorem claim_C3_amended_witness :
    recommend_question cexUser [wQ] none 0 = (some wQ, [("K1", 3/10)]) ∧
      wQ ∈ [wQ] ∧ availOk none wQ.id ∧ wQ.id ∉ cexUser.answered_questions ∧
      (∀ t ∈ wQ.knowledge_tags,
        ksLookup [("K1", 3/10)] t =
          some (ksLookupD cexUser.knowledge_state t cexUser.default_mastery)) :=
  ⟨recommend_eval_concrete, by simp, trivial, by simp [cexUser],
   claim_C3_amended cexUser [wQ] none 0 (some wQ) [("K1", 3/10)]
     recommend_eval_concrete wQ (by simp) trivial (by simp [cexUser])⟩

/-- C4: `recommend_question` returns none exactly when no question in the
pool survives the availability/answered/mastery filters; and any returned
question lies in the near-bottom band: for every possible random choice its
average mastery is within +0.05 of every surviving candidate's average
mastery (in particular of the minimum). -/
theorem claim_C4 (u : BKTUser) (qs : List Question) (avail : Option (List String))
    (pick : Nat) (res : Option Question) (ks' : List (String × ℚ))
    (h : recommend_question u qs avail pick = (res, ks')) :
    (res = none ↔ ∀ q ∈ qs, ¬ survives u avail q) ∧
      (∀ q, res = some q → ∀ q' ∈ qs, survives u avail q' →
        pureAvg ks' u.default_mastery q ≤ pureAvg ks' u.default_mastery q' + 1/20) := by
  cases hbc : buildCandidates u.default_mastery u.answered_questions avail qs
      u.knowledge_state with
  | mk cands ks2 =>
    have hinv : ∀ k, ksLookupD ks2 k u.default_mastery =
        ksLookupD u.knowledge_state k u.default_mastery := by
      intro k
      have h2 := bc_lookupD u.default_mastery u.answered_questions avail qs
        u.knowledge_state k
      rw [hbc] at h2
      exact h2
    unfold recommend_question at h
    rw [hbc] at h
    simp only at h
    cases hs : sortByKey cands with
    | nil =>
      rw [hs] at h
      simp only [Prod.mk.injEq] at h
      obtain ⟨hres, hks⟩ := h
      subst hres
      subst hks
      have hcand : cands = [] := sortByKey_eq_nil cands hs
      constructor
      · constructor
        · intro _ q hq hsurv
          obtain ⟨hav, hans, hle⟩ := hsurv
          have hmem := bc_mem_complete u.default_mastery u.answered_questions avail qs
            u.knowledge_state q hq hav hans hle
          rw [hbc, hcand] at hmem
          cases hmem
        · intro _; rfl
      · intro q hq'
        cases hq'
    | cons hd rest =>
      obtain ⟨m0, q0⟩ := hd
      rw [hs] at h
      simp only [Prod.mk.injEq] at h
      obtain ⟨hres, hks⟩ := h
      subst hks
      have hq0cand : (m0, q0) ∈ cands := by
        rw [← mem_sortByKey, hs]
        exact List.mem_cons_self _ _
      obtain ⟨hq0mem, hq0av, hq0ans, hq0avg, hq0le⟩ :=
        bc_mem u.default_mastery u.answered_questions avail qs u.knowledge_state m0 q0
          (by rw [hbc]; exact hq0cand)
      have hq0surv : survives u avail q0 := ⟨hq0av, hq0ans, by rw [← hq0avg]; exact hq0le⟩
      have hbandmem : (m0, q0) ∈
          ((m0, q0) :: rest).filter (fun x => x.1 ≤ m0 + 1/20) := by
        apply List.mem_filter.mpr
        refine ⟨List.mem_cons_self _ _, ?_⟩
        apply decide_eq_true
        linarith
      have hq0band : q0 ∈ (((m0, q0) :: rest).filter
          (fun x => x.1 ≤ m0 + 1/20)).map Prod.snd :=
        List.mem_map.mpr ⟨(m0, q0), hbandmem, rfl⟩
      have hlen : 0 < ((((m0, q0) :: rest).filter
          (fun x => x.1 ≤ m0 + 1/20)).map Prod.snd).length :=
        List.length_pos.mpr (List.ne_nil_of_mem hq0band)
      have hidx := Nat.mod_lt pick hlen
      obtain ⟨qr, hqr⟩ : ∃ a, ((((m0, q0) :: rest).filter
          (fun x => x.1 ≤ m0 + 1/20)).map Prod.snd).get?
            (pick % (((((m0, q0) :: rest).filter
              (fun x => x.1 ≤ m0 + 1/20)).map Prod.snd)).length) = some a :=
        ⟨_, List.get?_eq_get hidx⟩
      rw [hqr] at hres
      subst hres
      constructor
      · constructor
        · intro habs; cases habs
        · intro hnone
          exact absurd hq0surv (hnone q0 hq0mem)
      · intro q hq hq' hq'mem hq'surv
        injection hq with hq
        subst hq
        obtain ⟨x, hxf, hxq⟩ := List.mem_map.mp (List.get?_mem hqr)
        obtain ⟨hxs, hxp⟩ := List.mem_filter.mp hxf
        have hxband : x.1 ≤ m0 + 1/20 := of_decide_eq_true hxp
        have hxcand : x ∈ cands := by
          rw [← mem_sortByKey, hs]
          exact hxs
        obtain ⟨hxmem, hxav, hxans, hxavg, hxle⟩ :=
          bc_mem u.default_mastery u.answered_questions avail qs u.knowledge_state x.1 x.2
            (by rw [hbc]; exact hxcand)
        obtain ⟨hav', hans', hle'⟩ := hq'surv
        have hq'cand := bc_mem_complete u.default_mastery u.answered_questions avail qs
          u.knowledge_state hq' hq'mem hav' hans' hle'
        have hq'min : m0 ≤ pureAvg u.knowledge_state u.default_mastery hq' := by
          have := sortByKey_head_min cands m0 q0 rest hs
            (pureAvg u.knowledge_state u.default_mastery hq', hq')
            (by rw [hbc] at hq'cand; exact hq'cand)
          exact this
        have hpa : ∀ qq, pureAvg ks2 u.default_mastery qq =
            pureAvg u.knowledge_state u.default_mastery qq := by
          intro qq
          exact pureAvg_congr ks2 u.knowledge_state u.default_mastery qq hinv
        rw [← hxq, hpa, hpa]
        have hx2 : pureAvg u.knowledge_state u.default_mastery x.2 = x.1 := hxavg.symm
        rw [hx2]
        linarith

theorem claim_C4_witness :
    recommend_question cexUser [wQ] none 0 = (some wQ, [("K1", 3/10)]) ∧
      (((some wQ : Option Question) = none ↔ ∀ q ∈ [wQ], ¬ survives cexUser none q) ∧
        (∀ q, (some wQ : Option Question) = some q →
          ∀ q' ∈ [wQ], survives cexUser none q' →
            pureAvg [("K1", 3/10)] cexUser.default_mastery q ≤
              pureAvg [("K1", 3/10)] cexUser.default_mastery q' + 1/20)) :=
  ⟨recommend_eval_concrete,
   claim_C4 cexUser [wQ] none 0 (some wQ) [("K1", 3/10)] recommend_eval_concrete⟩

/-! ### Theorems: answer checker -/

/-- C8: for every question and every answer type, a submitted answer that is
empty after trimming whitespace is judged incorrect. -/
theorem claim_C8 {E : Type} (sympifyO : List Char → Option E)
    (equalsO simpZeroO : E → E → Option Bool) (floatO : List Char → Option ℚ)
    (question : Question) (ua : List Char) (h : pyStrip ua = []) :
    check_answer sympifyO equalsO simpZeroO floatO question ua = false := by
  simp [check_answer, h]

theorem claim_C8_witness :
    pyStrip [' '] = [] ∧
      check_answer sympifyNone oracleNone oracleNone floatEx qNum [' '] = false :=
  ⟨rfl, claim_C8 sympifyNone oracleNone oracleNone floatEx qNum [' '] rfl⟩

/-- C7: for answer type "numeric", `check_answer` returns true iff both the
(trimmed) submitted and reference strings parse as floats and the parsed
values differ by less than 1e-6; a parse failure on either side yields false
(the function is total: exceptions are caught, modelled by the parser
returning none). -/
theorem claim_C7 {E : Type} (sympifyO : List Char → Option E)
    (equalsO simpZeroO : E → E → Option Bool) (floatO : List Char → Option ℚ)
    (question : Question) (ua : List Char)
    (ht : question.answer_type = "numeric") (hemp : floatO [] = none) :
    (check_answer sympifyO equalsO simpZeroO floatO question ua = true ↔
      ∃ u c, floatO (pyStrip ua) = some u ∧ floatO (pyStrip question.answer) = some c ∧
        |u - c| < 1/1000000) := by
  by_cases hua : pyStrip ua = []
  · have hchk : check_answer sympifyO equalsO simpZeroO floatO question ua = false := by
      simp [check_answer, hua]
    rw [hchk]
    constructor
    · intro h; cases h
    · rintro ⟨u, c, hu, hc, hlt⟩
      rw [hua, hemp] at hu
      cases hu
  · have hstep : check_answer sympifyO equalsO simpZeroO floatO question ua =
        (match floatO (pyStrip ua), floatO (pyStrip question.answer) with
         | some u, some c => decide (|u - c| < 1/1000000)
         | _, _ => false) := by
      simp only [check_answer, ht, if_neg hua, if_pos]
    rw [hstep]
    cases hfu : floatO (pyStrip ua) with
    | none =>
      simp only
      constructor
      · intro h
        cases h
      · rintro ⟨u, c, hu, hc, hlt⟩
        cases hu
    | some u =>
      cases hfc : floatO (pyStrip question.answer) with
      | none =>
        simp only
        constructor
        · intro h; cases h
        · rintro ⟨u', c, hu, hc, hlt⟩
          cases hc
      | some c =>
        simp only [decide_eq_true_eq]
        constructor
        · intro h
          exact ⟨u, c, rfl, rfl, h⟩
        · rintro ⟨u', c', hu, hc, hlt⟩
          injection hu with hu
          injection hc with hc
          subst hu; subst hc
          exact hlt

theorem claim_C7_witness :
    qNum.answer_type = "numeric" ∧ floatEx [] = none ∧
      (check_answer sympifyNone oracleNone oracleNone floatEx qNum ['3'] = true ↔
        ∃ u c, floatEx (pyStrip ['3']) = some u ∧ floatEx (pyStrip qNum.answer) = some c ∧
          |u - c| < 1/1000000) :=
  ⟨rfl, rfl,
   claim_C7 sympifyNone oracleNone oracleNone floatEx qNum ['3'] rfl rfl⟩

/-! ### Theorems: normalizer stage lemmas -/

theorem dropWhile_eq_self_of (p : Char → Bool) (l : List Char)
    (h : ∀ c ∈ l, p c = false) : l.dropWhile p = l := by
  cases l with
  | nil => rfl
  | cons a r =>
    rw [List.dropWhile_cons, h a (List.mem_cons_self a r)]
    simp

theorem pyStrip_id (l : List Char) (h : ∀ c ∈ l, isPyWs c = false) : pyStrip l = l := by
  unfold pyStrip
  rw [dropWhile_eq_self_of _ _ h]
  rw [dropWhile_eq_self_of _ _ (fun c hc => h c (List.mem_reverse.mp hc))]
  exact List.reverse_reverse l

theorem ne_of_not_mem_head (a c : Char) (r : List Char) (h : a ∉ c :: r) : ¬ c = a :=
  fun hc => h (by rw [← hc]; exact List.mem_cons_self c r)

theorem expandChar_id (a : Char) (rep : List Char) (l : List Char) (h : a ∉ l) :
    expandChar a rep l = l := by
  induction l with
  | nil => rfl
  | cons c r ih =>
    simp only [expandChar]
    rw [if_neg (ne_of_not_mem_head a c r h)]
    rw [ih (fun hr => h (List.mem_cons_of_mem c hr))]
    rfl

theorem replaceChar_id (a b : Char) (l : List Char) (h : a ∉ l) :
    replaceChar a b l = l := by
  induction l with
  | nil => rfl
  | cons c r ih =>
    simp only [replaceChar]
    rw [if_neg (ne_of_not_mem_head a c r h)]
    rw [ih (fun hr => h (List.mem_cons_of_mem c hr))]

theorem removeChar_id (a : Char) (l : List Char) (h : a ∉ l) :
    removeChar a l = l := by
  induction l with
  | nil => rfl
  | cons c r ih =>
    simp only [removeChar]
    rw [if_neg (ne_of_not_mem_head a c r h)]
    rw [ih (fun hr => h (List.mem_cons_of_mem c hr))]

theorem pyReplaceF_id (p0 : Char) (ps rep : List Char) :
    ∀ fuel l, p0 ∉ l → pyReplaceF p0 ps rep fuel l = l := by
  intro fuel
  induction fuel with
  | zero => intro l _; cases l <;> rfl
  | succ f ih =>
    intro l h
    cases l with
    | nil => rfl
    | cons c rest =>
      have hc : (c == p0) = false := by
        rw [beq_eq_false_iff_ne]
        intro hcc
        exact h (hcc ▸ List.mem_cons_self c rest)
      simp only [pyReplaceF, hc, Bool.false_and, Bool.false_eq_true, if_false]
      rw [ih rest (fun hr => h (List.mem_cons_of_mem c hr))]

theorem pyReplaceStr_bs_id (pat rep l : List Char) (hhead : pat.head? = some '\\')
    (h : '\\' ∉ l) : pyReplaceStr pat rep l = l := by
  cases pat with
  | nil => simp at hhead
  | cons p0 ps =>
    rw [List.head?_cons, Option.some.injEq] at hhead
    subst hhead
    exact pyReplaceF_id '\\' ps rep l.length l h

theorem applySubs_bs_id : ∀ subs : List (List Char × List Char),
    (∀ pr ∈ subs, (Prod.fst pr).head? = some '\\') →
    ∀ l, '\\' ∉ l → applySubs subs l = l := by
  intro subs
  induction subs with
  | nil => intro _ l _; rfl
  | cons pr ps ih =>
    intro hh l hl
    obtain ⟨p, r⟩ := pr
    simp only [applySubs]
    rw [pyReplaceStr_bs_id p r l (hh (p, r) (List.mem_cons_self _ _)) hl]
    exact ih (fun x hx => hh x (List.mem_cons_of_mem _ hx)) l hl

theorem prefix_bs_false (cs : List Char) (c : Char) (rest : List Char) (hc : c ≠ '\\') :
    (('\\' :: cs).isPrefixOf (c :: rest)) = false := by
  simp only [List.isPrefixOf]
  rw [show ('\\' == c) = false from beq_eq_false_iff_ne.mpr (Ne.symm hc)]
  exact Bool.false_and _

theorem tryCmd1_none (cmd : List Char) (c : Char) (rest : List Char)
    (hhead : cmd.head? = some '\\') (hc : c ≠ '\\') : tryCmd1 cmd (c :: rest) = none := by
  cases cmd with
  | nil => simp at hhead
  | cons c0 cs =>
    rw [List.head?_cons, Option.some.injEq] at hhead
    subst hhead
    unfold tryCmd1
    rw [List.cons_append, prefix_bs_false (cs ++ [lbrace]) c rest hc]
    rfl

theorem tryFrac_none (c : Char) (rest : List Char) (hc : c ≠ '\\') :
    tryFrac (c :: rest) = none := by
  unfold tryFrac
  rw [show (("\\frac").data ++ [lbrace]) = '\\' :: (("frac").data ++ [lbrace]) from rfl]
  rw [prefix_bs_false _ c rest hc]
  rfl

theorem trySqrt_none (c : Char) (rest : List Char) (hc : c ≠ '\\') :
    trySqrt (c :: rest) = none := by
  unfold trySqrt
  rw [show (("\\sqrt").data ++ [lbrace]) = '\\' :: (("sqrt").data ++ [lbrace]) from rfl]
  rw [prefix_bs_false _ c rest hc]
  rfl

theorem trySqrtN_none (c : Char) (rest : List Char) (hc : c ≠ '\\') :
    trySqrtN (c :: rest) = none := by
  unfold trySqrtN
  rw [show (("\\sqrt[").data) = '\\' :: ("sqrt[").data from rfl]
  rw [prefix_bs_false _ c rest hc]
  rfl

theorem tryCaretBrace_none (c : Char) (rest : List Char) (h : lbrace ∉ c :: rest) :
    tryCaretBrace (c :: rest) = none := by
  unfold tryCaretBrace
  have hfalse : (('^' :: [lbrace]).isPrefixOf (c :: rest)) = false := by
    cases rest with
    | nil => simp [List.isPrefixOf]
    | cons r0 rest' =>
      have hr0 : (lbrace == r0) = false :=
        beq_eq_false_iff_ne.mpr
          (fun he => h (by rw [he]; exact List.mem_cons_of_mem c (List.mem_cons_self r0 rest')))
      simp [List.isPrefixOf, hr0]
  rw [hfalse]
  rfl

theorem subCmd1F_bs_id (cmd : List Char) (hhead : cmd.head? = some '\\') :
    ∀ fuel l, '\\' ∉ l → subCmd1F cmd fuel l = l := by
  intro fuel
  induction fuel with
  | zero => intro l _; cases l <;> rfl
  | succ f ih =>
    intro l h
    cases l with
    | nil => rfl
    | cons c rest =>
      have hc : c ≠ '\\' := fun he => h (by rw [← he]; exact List.mem_cons_self c rest)
      simp only [subCmd1F, tryCmd1_none cmd c rest hhead hc]
      rw [ih rest (fun hr => h (List.mem_cons_of_mem c hr))]

theorem subFracF_bs_id : ∀ fuel l, '\\' ∉ l → subFracF fuel l = l := by
  intro fuel
  induction fuel with
  | zero => intro l _; cases l <;> rfl
  | succ f ih =>
    intro l h
    cases l with
    | nil => rfl
    | cons c rest =>
      have hc : c ≠ '\\' := fun he => h (by rw [← he]; exact List.mem_cons_self c rest)
      simp only [subFracF, tryFrac_none c rest hc]
      rw [ih rest (fun hr => h (List.mem_cons_of_mem c hr))]

theorem subSqrtF_bs_id : ∀ fuel l, '\\' ∉ l → subSqrtF fuel l = l := by
  intro fuel
  induction fuel with
  | zero => intro l _; cases l <;> rfl
  | succ f ih =>
    intro l h
    cases l with
    | nil => rfl
    | cons c rest =>
      have hc : c ≠ '\\' := fun he => h (by rw [← he]; exact List.mem_cons_self c rest)
      simp only [subSqrtF, trySqrt_none c rest hc]
      rw [ih rest (fun hr => h (List.mem_cons_of_mem c hr))]

theorem subSqrtNF_bs_id : ∀ fuel l, '\\' ∉ l → subSqrtNF fuel l = l := by
  intro fuel
  induction fuel with
  | zero => intro l _; cases l <;> rfl
  | succ f ih =>
    intro l h
    cases l with
    | nil => rfl
    | cons c rest =>
      have hc : c ≠ '\\' := fun he => h (by rw [← he]; exact List.mem_cons_self c rest)
      simp only [subSqrtNF, trySqrtN_none c rest hc]
      rw [ih rest (fun hr => h (List.mem_cons_of_mem c hr))]

theorem subCaretBraceF_lb_id : ∀ fuel l, lbrace ∉ l → subCaretBraceF fuel l = l := by
  intro fuel
  induction fuel with
  | zero => intro l _; cases l <;> rfl
  | succ f ih =>
    intro l h
    cases l with
    | nil => rfl
    | cons c rest =>
      simp only [subCaretBraceF, tryCaretBrace_none c rest h]
      rw [ih rest (fun hr => h (List.mem_cons_of_mem c hr))]

theorem alpha_not_digit (c : Char) (h : isAlphaA c = true) : isDigitA c = false := by
  simp only [isAlphaA, Bool.or_eq_true, Bool.and_eq_true, decide_eq_true_eq] at h
  rcases h with ⟨h1, h2⟩ | ⟨h1, h2⟩ <;>
    exact Bool.and_eq_false_iff.mpr (Or.inr (decide_eq_false (by omega)))

theorem digit_not_alpha (c : Char) (h : isDigitA c = true) : isAlphaA c = false := by
  simp only [isDigitA, Bool.and_eq_true, decide_eq_true_eq] at h
  obtain ⟨h1, h2⟩ := h
  simp only [isAlphaA, Bool.or_eq_false_iff]
  constructor <;> exact Bool.and_eq_false_iff.mpr (Or.inl (decide_eq_false (by omega)))

theorem digit_ne_caret (c : Char) (h : isDigitA c = true) : (c == '^') = false := by
  rw [beq_eq_false_iff_ne]
  intro he
  rw [he] at h
  exact absurd h (by decide)

theorem hasPair_tail (p q : Char → Bool) (a : Char) (l : List Char)
    (h : hasPair p q (a :: l) = false) : hasPair p q l = false := by
  cases l with
  | nil => rfl
  | cons b rest =>
    rw [hasPair, Bool.or_eq_false_iff] at h
    exact h.2

theorem subDigitAlpha_cons (a : Char) (l : List Char) :
    ∃ t, subDigitAlpha (a :: l) = a :: t := by
  cases l with
  | nil => exact ⟨[], rfl⟩
  | cons b rest =>
    simp only [subDigitAlpha]
    split
    · exact ⟨'*' :: b :: subDigitAlpha rest, rfl⟩
    · exact ⟨subDigitAlpha (b :: rest), rfl⟩

theorem subAlphaDigit_cons (a : Char) (l : List Char) :
    ∃ t, subAlphaDigit (a :: l) = a :: t := by
  cases l with
  | nil => exact ⟨[], rfl⟩
  | cons b rest =>
    simp only [subAlphaDigit]
    split
    · exact ⟨'*' :: b :: subAlphaDigit rest, rfl⟩
    · exact ⟨subAlphaDigit (b :: rest), rfl⟩

theorem subParenParen_cons (a : Char) (l : List Char) :
    ∃ t, subParenParen (a :: l) = a :: t := by
  cases l with
  | nil => exact ⟨[], rfl⟩
  | cons b rest =>
    simp only [subParenParen]
    split
    · rename_i hcond
      rw [Bool.and_eq_true] at hcond
      have ha : a = ')' := by
        have := hcond.1
        rwa [beq_iff_eq] at this
      exact ⟨'*' :: '(' :: subParenParen rest, by rw [ha]⟩
    · exact ⟨subParenParen (b :: rest), rfl⟩

theorem subCaretDigit_cons (a : Char) (l : List Char) :
    (∃ t, subCaretDigit (a :: l) = a :: t) ∨
      (∃ t, subCaretDigit (a :: l) = '*' :: t) := by
  cases l with
  | nil => exact Or.inl ⟨[], rfl⟩
  | cons b rest =>
    simp only [subCaretDigit]
    split
    · exact Or.inr ⟨'*' :: b :: subCaretDigit rest, rfl⟩
    · exact Or.inl ⟨subCaretDigit (b :: rest), rfl⟩

theorem subCaretDigit_id : ∀ l, hasPair (fun c => c == '^') isDigitA l = false →
    subCaretDigit l = l
  | [], _ => rfl
  | [a], _ => rfl
  | a :: b :: rest, h => by
    rw [hasPair, Bool.or_eq_false_iff] at h
    obtain ⟨h1, h2⟩ := h
    simp only [subCaretDigit]
    rw [if_neg (by rw [h1]; exact Bool.false_ne_true)]
    rw [subCaretDigit_id (b :: rest) h2]

theorem subDigitAlpha_id : ∀ l, hasPair isDigitA isAlphaA l = false →
    subDigitAlpha l = l
  | [], _ => rfl
  | [a], _ => rfl
  | a :: b :: rest, h => by
    rw [hasPair, Bool.or_eq_false_iff] at h
    obtain ⟨h1, h2⟩ := h
    simp only [subDigitAlpha]
    rw [if_neg (by rw [h1]; exact Bool.false_ne_true)]
    rw [subDigitAlpha_id (b :: rest) h2]

theorem subAlphaDigit_id : ∀ l, hasPair isAlphaA isDigitA l = false →
    subAlphaDigit l = l
  | [], _ => rfl
  | [a], _ => rfl
  | a :: b :: rest, h => by
    rw [hasPair, Bool.or_eq_false_iff] at h
    obtain ⟨h1, h2⟩ := h
    simp only [subAlphaDigit]
    rw [if_neg (by rw [h1]; exact Bool.false_ne_true)]
    rw [subAlphaDigit_id (b :: rest) h2]

theorem subParenParen_id : ∀ l, hasPair (fun c => c == ')') (fun c => c == '(') l = false →
    subParenParen l = l
  | [], _ => rfl
  | [a], _ => rfl
  | a :: b :: rest, h => by
    rw [hasPair, Bool.or_eq_false_iff] at h
    obtain ⟨h1, h2⟩ := h
    simp only [subParenParen]
    rw [if_neg (by rw [h1]; exact Bool.false_ne_true)]
    rw [subParenParen_id (b :: rest) h2]

theorem isAlphaA_star : isAlphaA '*' = false := by decide

theorem isDigitA_star : isDigitA '*' = false := by decide

theorem star_ne_lparen : (('*' : Char) == '(') = false := by decide

theorem star_ne_rparen : (('*' : Char) == ')') = false := by decide

theorem lparen_ne_rparen : (('(' : Char) == ')') = false := by decide

theorem star_ne_caret : (('*' : Char) == '^') = false := by decide

theorem subDigitAlpha_no : ∀ l, hasPair isDigitA isAlphaA (subDigitAlpha l) = false
  | [] => rfl
  | [a] => rfl
  | a :: b :: rest => by
    simp only [subDigitAlpha]
    split
    · rename_i hcond
      rw [Bool.and_eq_true] at hcond
      have hpb : isDigitA b = false := alpha_not_digit b hcond.2
      cases hS : subDigitAlpha rest with
      | nil => simp [hasPair, hpb, isAlphaA_star, isDigitA_star]
      | cons s0 S' =>
        have hIH : hasPair isDigitA isAlphaA (s0 :: S') = false := by
          rw [← hS]; exact subDigitAlpha_no rest
        simp [hasPair, hpb, hIH, isAlphaA_star, isDigitA_star]
    · rename_i hcond
      have h1 : (isDigitA a && isAlphaA b) = false := Bool.eq_false_iff.mpr hcond
      obtain ⟨t, ht⟩ := subDigitAlpha_cons b rest
      rw [ht]
      have h2 : hasPair isDigitA isAlphaA (b :: t) = false := by
        rw [← ht]; exact subDigitAlpha_no (b :: rest)
      simp [hasPair, h1, h2]

theorem subAlphaDigit_no : ∀ l, hasPair isAlphaA isDigitA (subAlphaDigit l) = false
  | [] => rfl
  | [a] => rfl
  | a :: b :: rest => by
    simp only [subAlphaDigit]
    split
    · rename_i hcond
      rw [Bool.and_eq_true] at hcond
      have hpb : isAlphaA b = false := digit_not_alpha b hcond.2
      cases hS : subAlphaDigit rest with
      | nil => simp [hasPair, hpb, isAlphaA_star, isDigitA_star]
      | cons s0 S' =>
        have hIH : hasPair isAlphaA isDigitA (s0 :: S') = false := by
          rw [← hS]; exact subAlphaDigit_no rest
        simp [hasPair, hpb, hIH, isAlphaA_star, isDigitA_star]
    · rename_i hcond
      have h1 : (isAlphaA a && isDigitA b) = false := Bool.eq_false_iff.mpr hcond
      obtain ⟨t, ht⟩ := subAlphaDigit_cons b rest
      rw [ht]
      have h2 : hasPair isAlphaA isDigitA (b :: t) = false := by
        rw [← ht]; exact subAlphaDigit_no (b :: rest)
      simp [hasPair, h1, h2]

theorem subCaretDigit_no : ∀ l, hasPair (fun c => c == '^') isDigitA (subCaretDigit l) = false
  | [] => rfl
  | [a] => rfl
  | a :: b :: rest => by
    simp only [subCaretDigit]
    split
    · rename_i hcond
      rw [Bool.and_eq_true] at hcond
      have hpb : (b == '^') = false := digit_ne_caret b hcond.2
      cases hS : subCaretDigit rest with
      | nil => simp [hasPair, hpb, isDigitA_star, star_ne_caret]
      | cons s0 S' =>
        have hIH : hasPair (fun c => c == '^') isDigitA (s0 :: S') = false := by
          rw [← hS]; exact subCaretDigit_no rest
        simp [hasPair, hpb, hIH, isDigitA_star, star_ne_caret]
    · rename_i hcond
      have h1 : ((a == '^') && isDigitA b) = false := Bool.eq_false_iff.mpr hcond
      rcases subCaretDigit_cons b rest with ⟨t, ht⟩ | ⟨t, ht⟩
      · rw [ht]
        have h2 : hasPair (fun c => c == '^') isDigitA (b :: t) = false := by
          rw [← ht]; exact subCaretDigit_no (b :: rest)
        simp [hasPair, h1, h2]
      · rw [ht]
        have h2 : hasPair (fun c => c == '^') isDigitA ('*' :: t) = false := by
          rw [← ht]; exact subCaretDigit_no (b :: rest)
        simp [hasPair, h2, isDigitA_star, star_ne_caret]

theorem subParenParen_no :
    ∀ l, hasPair (fun c => c == ')') (fun c => c == '(') (subParenParen l) = false
  | [] => rfl
  | [a] => rfl
  | a :: b :: rest => by
    simp only [subParenParen]
    split
    · cases hS : subParenParen rest with
      | nil => simp [hasPair, star_ne_lparen, star_ne_rparen, lparen_ne_rparen]
      | cons s0 S' =>
        have hIH : hasPair (fun c => c == ')') (fun c => c == '(') (s0 :: S') = false := by
          rw [← hS]; exact subParenParen_no rest
        simp [hasPair, hIH, star_ne_lparen, star_ne_rparen, lparen_ne_rparen]
    · rename_i hcond
      have h1 : ((a == ')') && (b == '(')) = false := Bool.eq_false_iff.mpr hcond
      obtain ⟨t, ht⟩ := subParenParen_cons b rest
      rw [ht]
      have h2 : hasPair (fun c => c == ')') (fun c => c == '(') (b :: t) = false := by
        rw [← ht]; exact subParenParen_no (b :: rest)
      simp [hasPair, h1, h2]

theorem subDigitAlpha_pres (p q : Char → Bool) (hps : p '*' = false) (hqs : q '*' = false) :
    ∀ l, hasPair p q l = false → hasPair p q (subDigitAlpha l) = false
  | [], _ => rfl
  | [a], _ => rfl
  | a :: b :: rest, h => by
    rw [hasPair, Bool.or_eq_false_iff] at h
    obtain ⟨h1, h2⟩ := h
    simp only [subDigitAlpha]
    split
    · have hrest : hasPair p q rest = false := hasPair_tail p q b rest h2
      have hS := subDigitAlpha_pres p q hps hqs rest hrest
      cases rest with
      | nil => simp [subDigitAlpha, hasPair, hps, hqs]
      | cons r0 rest' =>
        obtain ⟨t, ht⟩ := subDigitAlpha_cons r0 rest'
        have hbr : (p b && q r0) = false := by
          rw [hasPair, Bool.or_eq_false_iff] at h2
          exact h2.1
        rw [ht] at hS ⊢
        simp [hasPair, hps, hqs, hbr, hS]
    · obtain ⟨t, ht⟩ := subDigitAlpha_cons b rest
      have hS := subDigitAlpha_pres p q hps hqs (b :: rest) h2
      rw [ht] at hS ⊢
      simp [hasPair, h1, hS]

theorem subAlphaDigit_pres (p q : Char → Bool) (hps : p '*' = false) (hqs : q '*' = false) :
    ∀ l, hasPair p q l = false → hasPair p q (subAlphaDigit l) = false
  | [], _ => rfl
  | [a], _ => rfl
  | a :: b :: rest, h => by
    rw [hasPair, Bool.or_eq_false_iff] at h
    obtain ⟨h1, h2⟩ := h
    simp only [subAlphaDigit]
    split
    · have hrest : hasPair p q rest = false := hasPair_tail p q b rest h2
      have hS := subAlphaDigit_pres p q hps hqs rest hrest
      cases rest with
      | nil => simp [subAlphaDigit, hasPair, hps, hqs]
      | cons r0 rest' =>
        obtain ⟨t, ht⟩ := subAlphaDigit_cons r0 rest'
        have hbr : (p b && q r0) = false := by
          rw [hasPair, Bool.or_eq_false_iff] at h2
          exact h2.1
        rw [ht] at hS ⊢
        simp [hasPair, hps, hqs, hbr, hS]
    · obtain ⟨t, ht⟩ := subAlphaDigit_cons b rest
      have hS := subAlphaDigit_pres p q hps hqs (b :: rest) h2
      rw [ht] at hS ⊢
      simp [hasPair, h1, hS]

theorem subCaretDigit_pres (p q : Char → Bool) (hps : p '*' = false) (hqs : q '*' = false) :
    ∀ l, hasPair p q l = false → hasPair p q (subCaretDigit l) = false
  | [], _ => rfl
  | [a], _ => rfl
  | a :: b :: rest, h => by
    rw [hasPair, Bool.or_eq_false_iff] at h
    obtain ⟨h1, h2⟩ := h
    simp only [subCaretDigit]
    split
    · have hrest : hasPair p q rest = false := hasPair_tail p q b rest h2
      have hS := subCaretDigit_pres p q hps hqs rest hrest
      cases rest with
      | nil => simp [subCaretDigit, hasPair, hps, hqs]
      | cons r0 rest' =>
        have hbr : (p b && q r0) = false := by
          rw [hasPair, Bool.or_eq_false_iff] at h2
          exact h2.1
        rcases subCaretDigit_cons r0 rest' with ⟨t, ht⟩ | ⟨t, ht⟩
        · rw [ht] at hS ⊢
          simp [hasPair, hps, hqs, hbr, hS]
        · rw [ht] at hS ⊢
          simp [hasPair, hps, hqs, hS]
    · have hS := subCaretDigit_pres p q hps hqs (b :: rest) h2
      rcases subCaretDigit_cons b rest with ⟨t, ht⟩ | ⟨t, ht⟩
      · rw [ht] at hS ⊢
        simp [hasPair, h1, hS]
      · rw [ht] at hS ⊢
        simp [hasPair, hqs, hS]

theorem subParenParen_pres (p q : Char → Bool) (hps : p '*' = false) (hqs : q '*' = false) :
    ∀ l, hasPair p q l = false → hasPair p q (subParenParen l) = false
  | [], _ => rfl
  | [a], _ => rfl
  | a :: b :: rest, h => by
    rw [hasPair, Bool.or_eq_false_iff] at h
    obtain ⟨h1, h2⟩ := h
    simp only [subParenParen]
    split
    · rename_i hcond
      rw [Bool.and_eq_true, beq_iff_eq, beq_iff_eq] at hcond
      obtain ⟨ha, hb⟩ := hcond
      rw [← ha, ← hb]
      have hrest : hasPair p q rest = false := hasPair_tail p q b rest h2
      have hS := subParenParen_pres p q hps hqs rest hrest
      cases rest with
      | nil => simp [subParenParen, hasPair, hps, hqs]
      | cons r0 rest' =>
        obtain ⟨t, ht⟩ := subParenParen_cons r0 rest'
        have hbr : (p b && q r0) = false := by
          rw [hasPair, Bool.or_eq_false_iff] at h2
          exact h2.1
        rw [ht] at hS ⊢
        simp [hasPair, hps, hqs, hbr, hS]
    · obtain ⟨t, ht⟩ := subParenParen_cons b rest
      have hS := subParenParen_pres p q hps hqs (b :: rest) h2
      rw [ht] at hS ⊢
      simp [hasPair, h1, hS]

theorem replaceChar_pres (a b : Char) (p q : Char → Bool) (hpb : p b = false)
    (hqb : q b = false) :
    ∀ l, hasPair p q l = false → hasPair p q (replaceChar a b l) = false
  | [], _ => rfl
  | [c], _ => rfl
  | c :: d :: rest, h => by
    rw [hasPair, Bool.or_eq_false_iff] at h
    obtain ⟨h1, h2⟩ := h
    have hIH := replaceChar_pres a b p q hpb hqb (d :: rest) h2
    simp only [replaceChar] at hIH ⊢
    by_cases hc : c = a <;> by_cases hd : d = a <;>
      simp [hc, hd, hasPair, hpb, hqb, h1, hIH] at hIH ⊢ <;>
      simp [hasPair, hIH, hpb, hqb, h1]

theorem mem_replaceChar (a b : Char) : ∀ l c, c ∈ replaceChar a b l → c ∈ l ∨ c = b
  | [], c, h => absurd h (List.not_mem_nil c)
  | d :: r, c, h => by
    simp only [replaceChar] at h
    rcases List.mem_cons.mp h with hh | hh
    · by_cases hd : d = a
      · rw [if_pos hd] at hh
        exact Or.inr hh
      · rw [if_neg hd] at hh
        exact Or.inl (by rw [hh]; exact List.mem_cons_self d r)
    · rcases mem_replaceChar a b r c hh with h2 | h2
      · exact Or.inl (List.mem_cons_of_mem d h2)
      · exact Or.inr h2

theorem replaceChar_removes (a b : Char) (hab : a ≠ b) : ∀ l, a ∉ replaceChar a b l
  | [], h => absurd h (List.not_mem_nil a)
  | d :: r, h => by
    simp only [replaceChar] at h
    rcases List.mem_cons.mp h with hh | hh
    · by_cases hd : d = a
      · rw [if_pos hd] at hh
        exact hab hh
      · rw [if_neg hd] at hh
        exact hd (hh.symm)
    · exact replaceChar_removes a b hab r hh

theorem mem_removeChar (a : Char) : ∀ l c, c ∈ removeChar a l → c ∈ l
  | [], c, h => absurd h (List.not_mem_nil c)
  | d :: r, c, h => by
    simp only [removeChar] at h
    by_cases hd : d = a
    · rw [if_pos hd] at h
      exact List.mem_cons_of_mem d (mem_removeChar a r c h)
    · rw [if_neg hd] at h
      rcases List.mem_cons.mp h with hh | hh
      · rw [hh]; exact List.mem_cons_self d r
      · exact List.mem_cons_of_mem d (mem_removeChar a r c hh)

theorem mem_subCaretDigit : ∀ l c, c ∈ subCaretDigit l → c ∈ l ∨ c = '*'
  | [], c, h => Or.inl h
  | [a], c, h => Or.inl h
  | a :: b :: rest, c, h => by
    simp only [subCaretDigit] at h
    split at h
    · simp only [List.mem_cons] at h
      rcases h with h | h | h | h
      · exact Or.inr h
      · exact Or.inr h
      · exact Or.inl (by rw [h]; exact List.mem_cons_of_mem a (List.mem_cons_self b rest))
      · rcases mem_subCaretDigit rest c h with h2 | h2
        · exact Or.inl (List.mem_cons_of_mem a (List.mem_cons_of_mem b h2))
        · exact Or.inr h2
    · simp only [List.mem_cons] at h
      rcases h with h | h
      · exact Or.inl (by rw [h]; exact List.mem_cons_self a _)
      · rcases mem_subCaretDigit (b :: rest) c h with h2 | h2
        · exact Or.inl (List.mem_cons_of_mem a h2)
        · exact Or.inr h2

theorem mem_subDigitAlpha : ∀ l c, c ∈ subDigitAlpha l → c ∈ l ∨ c = '*'
  | [], c, h => Or.inl h
  | [a], c, h => Or.inl h
  | a :: b :: rest, c, h => by
    simp only [subDigitAlpha] at h
    split at h
    · simp only [List.mem_cons] at h
      rcases h with h | h | h | h
      · exact Or.inl (by rw [h]; exact List.mem_cons_self a _)
      · exact Or.inr h
      · exact Or.inl (by rw [h]; exact List.mem_cons_of_mem a (List.mem_cons_self b rest))
      · rcases mem_subDigitAlpha rest c h with h2 | h2
        · exact Or.inl (List.mem_cons_of_mem a (List.mem_cons_of_mem b h2))
        · exact Or.inr h2
    · simp only [List.mem_cons] at h
      rcases h with h | h
      · exact Or.inl (by rw [h]; exact List.mem_cons_self a _)
      · rcases mem_subDigitAlpha (b :: rest) c h with h2 | h2
        · exact Or.inl (List.mem_cons_of_mem a h2)
        · exact Or.inr h2

theorem mem_subAlphaDigit : ∀ l c, c ∈ subAlphaDigit l → c ∈ l ∨ c = '*'
  | [], c, h => Or.inl h
  | [a], c, h => Or.inl h
  | a :: b :: rest, c, h => by
    simp only [subAlphaDigit] at h
    split at h
    · simp only [List.mem_cons] at h
      rcases h with h | h | h | h
      · exact Or.inl (by rw [h]; exact List.mem_cons_self a _)
      · exact Or.inr h
      · exact Or.inl (by rw [h]; exact List.mem_cons_of_mem a (List.mem_cons_self b rest))
      · rcases mem_subAlphaDigit rest c h with h2 | h2
        · exact Or.inl (List.mem_cons_of_mem a (List.mem_cons_of_mem b h2))
        · exact Or.inr h2
    · simp only [List.mem_cons] at h
      rcases h with h | h
      · exact Or.inl (by rw [h]; exact List.mem_cons_self a _)
      · rcases mem_subAlphaDigit (b :: rest) c h with h2 | h2
        · exact Or.inl (List.mem_cons_of_mem a h2)
        · exact Or.inr h2

theorem mem_subParenParen : ∀ l c, c ∈ subParenParen l → c ∈ l ∨ c = '*'
  | [], c, h => Or.inl h
  | [a], c, h => Or.inl h
  | a :: b :: rest, c, h => by
    simp only [subParenParen] at h
    split at h
    · rename_i hcond
      rw [Bool.and_eq_true, beq_iff_eq, beq_iff_eq] at hcond
      obtain ⟨ha, hb⟩ := hcond
      rw [← ha, ← hb] at h
      simp only [List.mem_cons] at h
      rcases h with h | h | h | h
      · exact Or.inl (by rw [h]; exact List.mem_cons_self a _)
      · exact Or.inr h
      · exact Or.inl (by rw [h]; exact List.mem_cons_of_mem a (List.mem_cons_self b rest))
      · rcases mem_subParenParen rest c h with h2 | h2
        · exact Or.inl (List.mem_cons_of_mem a (List.mem_cons_of_mem b h2))
        · exact Or.inr h2
    · simp only [List.mem_cons] at h
      rcases h with h | h
      · exact Or.inl (by rw [h]; exact List.mem_cons_self a _)
      · rcases mem_subParenParen (b :: rest) c h with h2 | h2
        · exact Or.inl (List.mem_cons_of_mem a h2)
        · exact Or.inr h2

theorem mem_breakRBrace : ∀ l cs r', breakRBrace l = some (cs, r') →
    ∀ c, (c ∈ cs ∨ c ∈ r') → c ∈ l
  | [], cs, r', h => by cases h
  | d :: rest, cs, r', h => by
    simp only [breakRBrace] at h
    split at h
    · rw [Option.some.injEq, Prod.mk.injEq] at h
      obtain ⟨h1, h2⟩ := h
      subst h1
      subst h2
      intro c hc
      rcases hc with hc | hc
      · cases hc
      · exact List.mem_cons_of_mem d hc
    · revert h
      cases hbr : breakRBrace rest with
      | none => intro h; cases h
      | some pr =>
        obtain ⟨cs0, r0⟩ := pr
        intro h
        simp only [Option.some.injEq, Prod.mk.injEq] at h
        obtain ⟨h1, h2⟩ := h
        subst h1
        subst h2
        intro c hc
        rcases hc with hc | hc
        · rcases List.mem_cons.mp hc with hh | hh
          · rw [hh]; exact List.mem_cons_self d rest
          · exact List.mem_cons_of_mem d (mem_breakRBrace rest cs0 r0 hbr c (Or.inl hh))
        · exact List.mem_cons_of_mem d (mem_breakRBrace rest cs0 r0 hbr c (Or.inr hc))

theorem mem_tryCaretBrace (l content rest' : List Char)
    (h : tryCaretBrace l = some (content, rest')) :
    ∀ c, (c ∈ content ∨ c ∈ rest') → c ∈ l := by
  unfold tryCaretBrace at h
  split at h
  · intro c hc
    exact List.drop_subset 2 l (mem_breakRBrace (l.drop 2) content rest' h c hc)
  · cases h

theorem mem_subCaretBraceF : ∀ fuel l c, c ∈ subCaretBraceF fuel l →
    c ∈ l ∨ c = '*' ∨ c = '(' ∨ c = ')' := by
  intro fuel
  induction fuel with
  | zero =>
    intro l c h
    cases l with
    | nil => exact Or.inl h
    | cons d r => exact Or.inl h
  | succ f ih =>
    intro l c h
    cases l with
    | nil => exact Or.inl h
    | cons d r =>
      simp only [subCaretBraceF] at h
      revert h
      cases htry : tryCaretBrace (d :: r) with
      | some pr =>
        obtain ⟨content, rest'⟩ := pr
        intro h
        simp only [List.mem_cons, List.mem_append] at h
        rcases h with h | h | h | h
        · exact Or.inr (Or.inl h)
        · exact Or.inr (Or.inl h)
        · exact Or.inr (Or.inr (Or.inl h))
        · rcases h with h | h
          · exact Or.inl (mem_tryCaretBrace (d :: r) content rest' htry c (Or.inl h))
          · rcases h with hh | hh
            · exact Or.inr (Or.inr (Or.inr hh))
            · rcases ih rest' c hh with h2 | h2
              · exact Or.inl (mem_tryCaretBrace (d :: r) content rest' htry c (Or.inr h2))
              · exact Or.inr h2
      | none =>
        intro h
        rcases List.mem_cons.mp h with hh | hh
        · exact Or.inl (by rw [hh]; exact List.mem_cons_self d r)
        · rcases ih r c hh with h2 | h2
          · exact Or.inl (List.mem_cons_of_mem d h2)
          · exact Or.inr h2

theorem mem_coreStages (l : List Char) (c : Char) (h : c ∈ coreStages l) :
    c ∈ l ∨ c = '*' ∨ c = '(' ∨ c = ')' := by
  unfold coreStages at h
  rcases mem_subParenParen _ c h with h | h
  · rcases mem_replaceChar rbrace ')' _ c h with h | h
    · rcases mem_replaceChar lbrace '(' _ c h with h | h
      · rcases mem_subAlphaDigit _ c h with h | h
        · rcases mem_subDigitAlpha _ c h with h | h
          · rcases mem_subCaretDigit _ c h with h | h
            · exact mem_subCaretBraceF l.length l c h
            · exact Or.inr (Or.inl h)
          · exact Or.inr (Or.inl h)
        · exact Or.inr (Or.inl h)
      · exact Or.inr (Or.inr (Or.inl h))
    · exact Or.inr (Or.inr (Or.inr h))
  · exact Or.inr (Or.inl h)

theorem coreStages_no_lb (l : List Char) : lbrace ∉ coreStages l := by
  intro h
  unfold coreStages at h
  rcases mem_subParenParen _ lbrace h with h | h
  · rcases mem_replaceChar rbrace ')' _ lbrace h with h | h
    · exact replaceChar_removes lbrace '(' (by decide) _ h
    · exact absurd h (by decide)
  · exact absurd h (by decide)

theorem coreStages_no_rb (l : List Char) : rbrace ∉ coreStages l := by
  intro h
  unfold coreStages at h
  rcases mem_subParenParen _ rbrace h with h | h
  · exact replaceChar_removes rbrace ')' (by decide) _ h
  · exact absurd h (by decide)

theorem coreStages_no_caret_digit (l : List Char) :
    hasPair (fun c => c == '^') isDigitA (coreStages l) = false := by
  unfold coreStages
  apply subParenParen_pres _ _ star_ne_caret isDigitA_star
  apply replaceChar_pres _ _ _ _ (by decide) (by decide)
  apply replaceChar_pres _ _ _ _ (by decide) (by decide)
  apply subAlphaDigit_pres _ _ star_ne_caret isDigitA_star
  apply subDigitAlpha_pres _ _ star_ne_caret isDigitA_star
  exact subCaretDigit_no _

theorem coreStages_no_digit_alpha (l : List Char) :
    hasPair isDigitA isAlphaA (coreStages l) = false := by
  unfold coreStages
  apply subParenParen_pres _ _ isDigitA_star isAlphaA_star
  apply replaceChar_pres _ _ _ _ (by decide) (by decide)
  apply replaceChar_pres _ _ _ _ (by decide) (by decide)
  apply subAlphaDigit_pres _ _ isDigitA_star isAlphaA_star
  exact subDigitAlpha_no _

theorem coreStages_no_alpha_digit (l : List Char) :
    hasPair isAlphaA isDigitA (coreStages l) = false := by
  unfold coreStages
  apply subParenParen_pres _ _ isAlphaA_star isDigitA_star
  apply replaceChar_pres _ _ _ _ (by decide) (by decide)
  apply replaceChar_pres _ _ _ _ (by decide) (by decide)
  exact subAlphaDigit_no _

theorem coreStages_no_paren_pair (l : List Char) :
    hasPair (fun c => c == ')') (fun c => c == '(') (coreStages l) = false := by
  unfold coreStages
  exact subParenParen_no _

theorem latex_pass2 (m : List Char)
    (hbs : '\\' ∉ m) (hws : ∀ c ∈ m, isPyWs c = false)
    (hlb : lbrace ∉ m) (hrb : rbrace ∉ m)
    (hcd : hasPair (fun c => c == '^') isDigitA m = false)
    (hda : hasPair isDigitA isAlphaA m = false)
    (had : hasPair isAlphaA isDigitA m = false)
    (hpp : hasPair (fun c => c == ')') (fun c => c == '(') m = false) :
    latex_to_sympy m = m := by
  have hff : Char.ofNat 12 ∉ m := fun hc => absurd (hws _ hc) (by decide)
  have hta : '\t' ∉ m := fun hc => absurd (hws _ hc) (by decide)
  have hcr : '\r' ∉ m := fun hc => absurd (hws _ hc) (by decide)
  have hnl : '\n' ∉ m := fun hc => absurd (hws _ hc) (by decide)
  have hsp : ' ' ∉ m := fun hc => absurd (hws _ hc) (by decide)
  simp only [latex_to_sympy]
  rw [pyStrip_id m hws]
  rw [expandChar_id _ _ m hff]
  rw [expandChar_id _ _ m hta]
  rw [expandChar_id _ _ m hcr]
  rw [expandChar_id _ _ m hnl]
  rw [show subCmd1 (("\\mathrm").data) m = m from
    subCmd1F_bs_id (("\\mathrm").data) rfl m.length m hbs]
  rw [show subCmd1 (("\\text").data) m = m from
    subCmd1F_bs_id (("\\text").data) rfl m.length m hbs]
  rw [show subFrac m = m from subFracF_bs_id m.length m hbs]
  rw [show subSqrt m = m from subSqrtF_bs_id m.length m hbs]
  rw [show subSqrtN m = m from subSqrtNF_bs_id m.length m hbs]
  rw [show subCaretBrace m = m from subCaretBraceF_lb_id m.length m hlb]
  rw [subCaretDigit_id m hcd]
  rw [subDigitAlpha_id m hda]
  rw [subAlphaDigit_id m had]
  rw [applySubs_bs_id greekSubs (by decide) m hbs]
  rw [applySubs_bs_id funcSubs (by decide) m hbs]
  rw [pyReplaceStr_bs_id (("\\exp").data) (("exp").data) m rfl hbs]
  rw [replaceChar_id lbrace '(' m hlb]
  rw [replaceChar_id rbrace ')' m hrb]
  rw [subParenParen_id m hpp]
  rw [removeChar_id ' ' m hsp]

theorem latex_pass1 (l : List Char) (h : ∀ c ∈ l, c ≠ '\\' ∧ isPyWs c = false) :
    latex_to_sympy l = coreStages l := by
  have hbs : '\\' ∉ l := fun hc => (h _ hc).1 rfl
  have hws : ∀ c ∈ l, isPyWs c = false := fun c hc => (h c hc).2
  have hff : Char.ofNat 12 ∉ l := fun hc => absurd (hws _ hc) (by decide)
  have hta : '\t' ∉ l := fun hc => absurd (hws _ hc) (by decide)
  have hcr : '\r' ∉ l := fun hc => absurd (hws _ hc) (by decide)
  have hnl : '\n' ∉ l := fun hc => absurd (hws _ hc) (by decide)
  have hmem4 : ∀ c, c ∈ subAlphaDigit (subDigitAlpha (subCaretDigit (subCaretBrace l))) →
      c ∈ l ∨ c = '*' ∨ c = '(' ∨ c = ')' := by
    intro c hc
    rcases mem_subAlphaDigit _ c hc with hc | hc
    · rcases mem_subDigitAlpha _ c hc with hc | hc
      · rcases mem_subCaretDigit _ c hc with hc | hc
        · exact mem_subCaretBraceF l.length l c hc
        · exact Or.inr (Or.inl hc)
      · exact Or.inr (Or.inl hc)
    · exact Or.inr (Or.inl hc)
  have hbs4 : '\\' ∉ subAlphaDigit (subDigitAlpha (subCaretDigit (subCaretBrace l))) := by
    intro hc
    rcases hmem4 _ hc with hc | hc | hc | hc
    · exact hbs hc
    · exact absurd hc (by decide)
    · exact absurd hc (by decide)
    · exact absurd hc (by decide)
  have hsp : ' ' ∉ subParenParen (replaceChar rbrace ')' (replaceChar lbrace '('
      (subAlphaDigit (subDigitAlpha (subCaretDigit (subCaretBrace l)))))) := by
    intro hc
    rcases mem_subParenParen _ ' ' hc with hc | hc
    · rcases mem_replaceChar rbrace ')' _ ' ' hc with hc | hc
      · rcases mem_replaceChar lbrace '(' _ ' ' hc with hc | hc
        · rcases hmem4 _ hc with hc | hc | hc | hc
          · exact absurd (hws _ hc) (by decide)
          · exact absurd hc (by decide)
          · exact absurd hc (by decide)
          · exact absurd hc (by decide)
        · exact absurd hc (by decide)
      · exact absurd hc (by decide)
    · exact absurd hc (by decide)
  simp only [latex_to_sympy, coreStages]
  rw [pyStrip_id l hws]
  rw [expandChar_id _ _ l hff]
  rw [expandChar_id _ _ l hta]
  rw [expandChar_id _ _ l hcr]
  rw [expandChar_id _ _ l hnl]
  rw [show subCmd1 (("\\mathrm").data) l = l from
    subCmd1F_bs_id (("\\mathrm").data) rfl l.length l hbs]
  rw [show subCmd1 (("\\text").data) l = l from
    subCmd1F_bs_id (("\\text").data) rfl l.length l hbs]
  rw [show subFrac l = l from subFracF_bs_id l.length l hbs]
  rw [show subSqrt l = l from subSqrtF_bs_id l.length l hbs]
  rw [show subSqrtN l = l from subSqrtNF_bs_id l.length l hbs]
  rw [applySubs_bs_id greekSubs (by decide) _ hbs4]
  rw [applySubs_bs_id funcSubs (by decide) _ hbs4]
  rw [pyReplaceStr_bs_id (("\\exp").data) (("exp").data) _ rfl hbs4]
  rw [removeChar_id ' ' _ hsp]

/-- C10 counterexample: `latex_to_sympy` is not idempotent.  On "2\pi" one
application gives "2pi" (the Greek replacement runs after the
implicit-multiplication stage), and a second application turns that into
"2*pi"; on "2 x" one application gives "2x" (whitespace is removed last),
and a second gives "2*x". -/
theorem claim_C10_counterexample :
    latex_to_sympy (latex_to_sympy (("2\\pi").data)) ≠ latex_to_sympy (("2\\pi").data) ∧
      latex_to_sympy (latex_to_sympy (("2 x").data)) ≠ latex_to_sympy (("2 x").data) := by
  constructor
  · set_option maxRecDepth 20000 in decide
  · set_option maxRecDepth 20000 in decide

/-- C10 (amended): `latex_to_sympy` is idempotent on every input containing
no backslash and no whitespace character.  (In general it is not
idempotent: the Greek/function-name replacements and the final whitespace
removal can re-expose the implicit-multiplication and caret patterns of the
earlier stages, as the counterexamples "2\pi" and "2 x" show.) -/
theorem claim_C10_amended (l : List Char)
    (h : ∀ c ∈ l, c ≠ '\\' ∧ isPyWs c = false) :
    latex_to_sympy (latex_to_sympy l) = latex_to_sympy l := by
  rw [latex_pass1 l h]
  have hmem := mem_coreStages l
  have hbs' : '\\' ∉ coreStages l := by
    intro hc
    rcases hmem _ hc with hc | hc | hc | hc
    · exact (h _ hc).1 rfl
    · exact absurd hc (by decide)
    · exact absurd hc (by decide)
    · exact absurd hc (by decide)
  have hws' : ∀ c ∈ coreStages l, isPyWs c = false := by
    intro c hc
    rcases hmem _ hc with hc | hc | hc | hc
    · exact (h _ hc).2
    · rw [hc]; decide
    · rw [hc]; decide
    · rw [hc]; decide
  exact latex_pass2 (coreStages l) hbs' hws' (coreStages_no_lb l) (coreStages_no_rb l)
    (coreStages_no_caret_digit l) (coreStages_no_digit_alpha l)
    (coreStages_no_alpha_digit l) (coreStages_no_paren_pair l)

theorem claim_C10_amended_witness :
    (∀ c ∈ (("x^(2)+1").data), c ≠ '\\' ∧ isPyWs c = false) ∧
      latex_to_sympy (latex_to_sympy (("x^(2)+1").data)) =
        latex_to_sympy (("x^(2)+1").data) :=
  ⟨by decide, claim_C10_amended (("x^(2)+1").data) (by decide)⟩
